import Mathlib

/-!
# Verification of the build-plan resolution core of `verdafile.js`

This file gives a shallow embedding, in Lean 4, of the configuration-to-task-graph
compiler of the repository's main build script (`verdafile.js`): axis/suffix
resolution, numeric validation, build-plan expansion, collection planning and
configuration merging.  Numbers from the configuration are modelled as rationals
(`ℚ`); JavaScript objects are modelled as insertion-ordered association lists with
JS assignment semantics (writing to an existing key replaces the value in place,
writing a fresh key appends it); code that can `throw` is modelled in
`Except String`.  Each definition is a direct translation of the corresponding
function of `verdafile.js`; line references are given in the doc comments.
-/

namespace Verdafile

/-- JS `v || fb` for a possibly-absent string property: `undefined` and the empty
string are falsy, so they fall back to `fb`. Used for `widths[wd].css || wd` and
`slopes[s] || s` (verdafile.js lines 231, 236-237). -/
def jsOr (v : Option String) (fb : String) : String :=
  match v with
  | none => fb
  | some t => if t = "" then fb else t

/-- JS object property write `m[k] = v` on an insertion-ordered object: if `k` is
already a key its value is replaced in place, otherwise `(k, v)` is appended. -/
def objInsert (m : List (String × α)) (k : String) (v : α) : List (String × α) :=
  match m with
  | [] => [(k, v)]
  | (k₁, v₁) :: rest => if k₁ = k then (k, v) :: rest else (k₁, v₁) :: objInsert rest k v

/-- JS pattern `if (!m[k]) m[k] = []; m[k].push(v)`: append `v` to the list stored
at key `k`, creating the key (at the end, in insertion order) if absent.
Models verdafile.js lines 311-314. -/
def objUpdate (m : List (String × List α)) (k : String) (v : α) : List (String × List α) :=
  match m with
  | [] => [(k, [v])]
  | (k₁, l₁) :: rest => if k₁ = k then (k₁, l₁ ++ [v]) :: rest else (k₁, l₁) :: objUpdate rest k v

/-- JS `Set.prototype.add`: insertion-ordered set insertion. -/
def setAdd [DecidableEq α] (l : List α) (x : α) : List α :=
  if x ∈ l then l else l ++ [x]

/-- JS `Array.from(new Set(l))`: removes duplicates by exact equality keeping the
first occurrence of each element (JS `Set` preserves insertion order).
Models the consumption sites at verdafile.js lines 454, 486, 502, 528. -/
def jsSetDedup [DecidableEq α] (l : List α) : List α :=
  l.foldl setAdd []

/-- Helper: `exceptIsOk e` is `true` iff `e` is an `ok` result. -/
def exceptIsOk : Except ε α → Bool
  | .ok _ => true
  | .error _ => false

/-! ## Constants (verdafile.js lines 32-35) -/

def WIDTH_NORMAL : String := "normal"
def WEIGHT_NORMAL : String := "regular"
def SLOPE_NORMAL : String := "upright"
def DEFAULT_SUBFAMILY : String := "regular"

/-- Function `makeFileName` (verdafile.js lines 241-243). -/
def makeFileName (pfx suffix : String) : String :=
  pfx ++ "-" ++ suffix

/-- Function `makeSuffix` (verdafile.js lines 244-250): concatenate the non-normal axis
keys in width-weight-slope order; an empty concatenation (JS falsy `""`) falls
back to the given default subfamily token. -/
def makeSuffix (w wd s fallback : String) : String :=
  let t := (if wd = WIDTH_NORMAL then "" else wd)
        ++ (if w = WEIGHT_NORMAL then "" else w)
        ++ (if s = SLOPE_NORMAL then "" else s)
  if t = "" then fallback else t

/-! ## Numeric validation (verdafile.js lines 947-978) -/

/-- Render a configuration number the way the JS error messages do.  All values
exercised by the spec's scenarios are integers, printed without a denominator. -/
def ratToString (q : ℚ) : String :=
  if q.den = 1 then toString q.num else toString q.num ++ "/" ++ toString q.den

/-- A numeric validator object.  `fixup` models the *presence and truthiness of
the `fixup` property* tested by `nValidate` (line 949: `if (validator.fixup) v =
validator.fix(v)`); `fix` models the `fix` method (absent methods are modelled by
`id`, which is sound because `fix` is only called when `fixup` is true). -/
structure NVal where
  fixup : Bool
  fix : ℚ → ℚ
  validate : ℚ → Bool

/-- Function `nValidate` (verdafile.js lines 948-954).  The `typeof v !== "number" ||
!isFinite(v)` guard is always passed in this model since every modelled value is
a finite rational. -/
def nValidate (key : String) (v : ℚ) (validator : NVal) : Except String ℚ :=
  let v := if validator.fixup then validator.fix v else v
  if validator.validate v then Except.ok v
  else Except.error (key ++ " = " ++ ratToString v ++ " is not a valid number.")

/-- Fuel-driven bisection for the integer square root (structurally recursive so
that concrete values reduce inside the kernel).  Maintains `lo² ≤ n < hi²`. -/
def sqrtBisect (n : ℕ) : ℕ → ℕ → ℕ → ℕ
  | 0, lo, _hi => lo
  | fuel + 1, lo, hi =>
    if hi ≤ lo + 1 then lo
    else
      if (lo + hi) / 2 * ((lo + hi) / 2) ≤ n then sqrtBisect n fuel ((lo + hi) / 2) hi
      else sqrtBisect n fuel lo ((lo + hi) / 2)

/-- Integer square root floor: `natSqrtB n = ⌊√n⌋` (see `natSqrtB_spec`). -/
def natSqrtB (n : ℕ) : ℕ :=
  sqrtBisect n (n + 1) 0 (n + 1)

theorem sqrtBisect_spec (n : ℕ) : ∀ (fuel lo hi : ℕ),
    lo * lo ≤ n → n < hi * hi → hi ≤ lo + 2 ^ fuel →
    sqrtBisect n fuel lo hi * sqrtBisect n fuel lo hi ≤ n ∧
      n < (sqrtBisect n fuel lo hi + 1) * (sqrtBisect n fuel lo hi + 1) := by
  intro fuel
  induction fuel with
  | zero =>
    intro lo hi hlo hhi hgap
    simp only [sqrtBisect]
    refine ⟨hlo, lt_of_lt_of_le hhi (Nat.mul_le_mul ?_ ?_)⟩ <;> simpa using hgap
  | succ fuel ih =>
    intro lo hi hlo hhi hgap
    simp only [sqrtBisect]
    by_cases hle : hi ≤ lo + 1
    · rw [if_pos hle]
      exact ⟨hlo, lt_of_lt_of_le hhi (Nat.mul_le_mul (by omega) (by omega))⟩
    · rw [if_neg hle]
      have h2 : (2 : ℕ) ^ (fuel + 1) = 2 ^ fuel + 2 ^ fuel := by ring
      by_cases hmid : (lo + hi) / 2 * ((lo + hi) / 2) ≤ n
      · rw [if_pos hmid]
        exact ih _ _ hmid hhi (by omega)
      · rw [if_neg hmid]
        exact ih _ _ hlo (by omega) (by omega)

theorem natSqrtB_spec (n : ℕ) :
    natSqrtB n * natSqrtB n ≤ n ∧ n < (natSqrtB n + 1) * (natSqrtB n + 1) := by
  have hpow : n + 1 ≤ 2 ^ (n + 1) :=
    le_trans (Nat.succ_le_of_lt (Nat.lt_two_pow n)) (Nat.pow_le_pow_right (by omega) (by omega))
  exact sqrtBisect_spec n (n + 1) 0 (n + 1) (by omega) (by nlinarith) (by omega)

/-- Integer square root floor of the fraction `a / b`:
`floorSqrtFrac a b = ⌊√(a/b)⌋ = ⌊√(a·b)⌋ / b` (the representation need not be in
lowest terms). -/
def floorSqrtFrac (a b : ℕ) : ℕ :=
  natSqrtB (a * b) / b

/-- Nearest integer to `√(a/b)`, rounding halves up exactly as JS `Math.round`:
`round √(a/b) = ⌊√(a/b) + 1/2⌋ = (⌊√(4a/b)⌋ + 1) / 2`. -/
def roundSqrtFrac (a b : ℕ) : ℕ :=
  (floorSqrtFrac (4 * a) b + 1) / 2

/-- The legacy width-grade correction formula of `VlShapeWidth.fix`
(verdafile.js line 966): `Math.round(500 * Math.pow(Math.sqrt(576/500), x - 5))`.
Since `500 · (√(576/500))^(x-5) = √(500² · 576^(x-5) / 500^(x-5))`, the rounded
value is computed exactly as `roundSqrtFrac` of a numerator/denominator pair of
naturals; the theorem for claim C5 below checks the agreement with the literal
real-number formula of the source at grade 9, where the spec spells the formula
out. -/
def widthGradeCorrect (x : ℤ) : ℤ :=
  if 5 ≤ x then (roundSqrtFrac (250000 * 576 ^ (x - 5).toNat) (500 ^ (x - 5).toNat) : ℤ)
  else (roundSqrtFrac (250000 * 500 ^ (5 - x).toNat) (576 ^ (5 - x).toNat) : ℤ)

/-- The warning emitted by the legacy width-grade fixup (verdafile.js lines 967-970). -/
def widthGradeWarning (x xc : ℚ) : String :=
  "The build plan is using legacy width grade " ++ ratToString x ++
    ". Converting to unit width " ++ ratToString xc ++ "."

/-- The memoization map `g_widthFixupMemory` (verdafile.js line 960), modelled as
an association list from input grade to corrected value. -/
abbrev FixMemory := List (ℚ × ℚ)

/-- Method `VlShapeWidth.fix` (verdafile.js lines 963-976) with its process-global
memoization map made explicit: returns the (possibly corrected) value, the new
memory, and the list of warnings emitted by this call.  The legacy-grade branch
is modelled for integer grades (`x.den = 1`); a non-integer value inside `[3, 9]`
would be corrected by the source through a floating-point power, a case no
configuration field of the spec exercises and which this model passes through. -/
def vlShapeWidthFixRun (mem : FixMemory) (x : ℚ) : ℚ × FixMemory × List String :=
  if 3 ≤ x ∧ x ≤ 9 ∧ x.den = 1 then
    match mem.lookup x with
    | some c => (c, mem, [])
    | none =>
      let xc : ℚ := ((widthGradeCorrect x.num : ℤ) : ℚ)
      (xc, (x, xc) :: mem, [widthGradeWarning x xc])
  else (x, mem, [])

/-- The value computed by `VlShapeWidth.fix` on a given grade (the memoization
only caches this value; it never changes it; see the theorem for claim C6 below). -/
def vlShapeWidthFix (x : ℚ) : ℚ :=
  (vlShapeWidthFixRun [] x).1

/-- Validator `VlShapeWeight` (verdafile.js line 956).  The source object has no `fixup`
property, so `nValidate` never applies a fix for it. -/
def VlShapeWeight : NVal :=
  { fixup := false, fix := id, validate := fun x => decide (100 ≤ x ∧ x ≤ 900) }

/-- Validator `VlCssWeight` (verdafile.js line 957). -/
def VlCssWeight : NVal :=
  { fixup := false, fix := id, validate := fun x => decide (0 < x ∧ x < 1000) }

/-- Validator `VlMenuWeight` (verdafile.js line 958). -/
def VlMenuWeight : NVal := VlCssWeight

/-- Validator `VlShapeWidth` (verdafile.js lines 961-977).  Note that the source object
defines a `fix` method but *no* `fixup` property, so `nValidate`'s guard
`if (validator.fixup)` is false and the fix is never invoked by the validation
pipeline; `fixup := false` records exactly that. -/
def VlShapeWidth : NVal :=
  { fixup := false, fix := vlShapeWidthFix, validate := fun x => decide (433 ≤ x ∧ x ≤ 665) }

/-- Validator `VlMenuWidth` (verdafile.js line 978): an integer in `[1, 9]`
(`x % 1 === 0` is modelled as `x.den = 1`). -/
def VlMenuWidth : NVal :=
  { fixup := false, fix := id, validate := fun x => decide (1 ≤ x ∧ x ≤ 9 ∧ x.den = 1) }

/-! ## Axis tables and the suffix mapping (verdafile.js lines 206-239) -/

/-- One weight entry of the configuration: `{shape, css, menu}` numbers. -/
structure WeightEntry where
  shape : ℚ
  css : ℚ
  menu : ℚ
  deriving DecidableEq, Repr

/-- One width entry: `shape` and `menu` numbers plus an optional `css` stretch
keyword (a string such as `"normal"`). -/
structure WidthEntry where
  shape : ℚ
  css : Option String
  menu : ℚ
  deriving DecidableEq, Repr

abbrev Weights := List (String × WeightEntry)
abbrev Slopes := List (String × String)
abbrev Widths := List (String × WidthEntry)

/-- A resolved suffix-mapping entry (the object literal of
`getSuffixMappingItem`, verdafile.js lines 220-239). -/
structure SuffixMappingItem where
  weight : String
  shapeWeight : ℚ
  cssWeight : ℚ
  menuWeight : ℚ
  width : String
  shapeWidth : ℚ
  cssStretch : String
  menuWidth : ℚ
  slope : String
  cssStyle : String
  menuSlope : String
  deriving DecidableEq, Repr

/-- Function `getSuffixMappingItem` (verdafile.js lines 220-239).  The five numeric fields
pass through `nValidate` in source field order (shape/css/menu weight, then
shape/menu width); `cssStretch`, `cssStyle` and `menuSlope` are string fallbacks
and are never validated.  In the source a missing `weights[w]`/`widths[wd]` key
would only surface as a `TypeError` when its `.shape` field is dereferenced
(i.e. after the earlier validators ran); the callers always pass keys iterated
from the very same tables, so the difference is unobservable there. -/
def getSuffixMappingItem (weights : Weights) (w : String) (slopes : Slopes) (s : String)
    (widths : Widths) (wd : String) : Except String SuffixMappingItem :=
  match weights.lookup w, widths.lookup wd with
  | some we, some wde =>
    (match nValidate ("Shape weight of " ++ w) we.shape VlShapeWeight,
           nValidate ("CSS weight of " ++ w) we.css VlCssWeight,
           nValidate ("Menu weight of " ++ w) we.menu VlMenuWeight,
           nValidate ("Shape width of " ++ wd) wde.shape VlShapeWidth,
           nValidate ("Menu width of " ++ wd) wde.menu VlMenuWidth with
     | .ok sw, .ok cw, .ok mw, .ok swd, .ok mwd =>
       .ok { weight := w, shapeWeight := sw, cssWeight := cw, menuWeight := mw,
             width := wd, shapeWidth := swd, cssStretch := jsOr wde.css wd, menuWidth := mwd,
             slope := s, cssStyle := jsOr (slopes.lookup s) s,
             menuSlope := jsOr (slopes.lookup s) s }
     | .error e, _, _, _, _ => .error e
     | _, .error e, _, _, _ => .error e
     | _, _, .error e, _, _ => .error e
     | _, _, _, .error e, _ => .error e
     | _, _, _, _, .error e => .error e)
  | none, _ => .error ("weights[" ++ w ++ "] is not defined.")
  | _, none => .error ("widths[" ++ wd ++ "] is not defined.")

/-- Innermost loop of `getSuffixMapping` (verdafile.js lines 212-215): iterate the
width keys for a fixed weight and slope, writing each item into the mapping under
its suffix. -/
def suffixMapWidths (weights : Weights) (w : String) (slopes : Slopes) (s : String)
    (widths : Widths) :
    List (String × WidthEntry) → List (String × SuffixMappingItem) →
    Except String (List (String × SuffixMappingItem))
  | [], m => .ok m
  | wde :: rest, m =>
    match getSuffixMappingItem weights w slopes s widths wde.1 with
    | .error e => .error e
    | .ok item =>
      suffixMapWidths weights w slopes s widths rest
        (objInsert m (makeSuffix w wde.1 s DEFAULT_SUBFAMILY) item)

/-- Middle loop of `getSuffixMapping` (verdafile.js line 211): iterate the slopes. -/
def suffixMapSlopes (weights : Weights) (w : String) (slopes : Slopes) (widths : Widths) :
    List (String × String) → List (String × SuffixMappingItem) →
    Except String (List (String × SuffixMappingItem))
  | [], m => .ok m
  | se :: rest, m =>
    match suffixMapWidths weights w slopes se.1 widths widths m with
    | .error e => .error e
    | .ok m₁ => suffixMapSlopes weights w slopes widths rest m₁

/-- Outer loop of `getSuffixMapping` (verdafile.js lines 208-217): iterate the
weights.  The `validateRecommendedWeight` calls at lines 209-210 only emit
non-fatal warnings (the declared value is always used) and are not modelled. -/
def suffixMapWeights (weights : Weights) (slopes : Slopes) (widths : Widths) :
    List (String × WeightEntry) → List (String × SuffixMappingItem) →
    Except String (List (String × SuffixMappingItem))
  | [], m => .ok m
  | we :: rest, m =>
    match suffixMapSlopes weights we.1 slopes widths slopes m with
    | .error e => .error e
    | .ok m₁ => suffixMapWeights weights slopes widths rest m₁

/-- Function `getSuffixMapping` (verdafile.js lines 206-219): the full weight × slope ×
width cross product, as an insertion-ordered association list from suffix to
`SuffixMappingItem`. -/
def getSuffixMapping (weights : Weights) (slopes : Slopes) (widths : Widths) :
    Except String (List (String × SuffixMappingItem)) :=
  suffixMapWeights weights slopes widths weights []

/-! ## Build-plan expansion (verdafile.js lines 114-140, 909-923) -/

/-- A raw build-plan entry as parsed from the configuration.  Only the fields the
expansion logic reads are modelled; absent tables are `none` (a JS-falsy
`undefined`). -/
structure RawBuildPlan where
  family : Option String := none
  weights : Option Weights := none
  slopes : Option Slopes := none
  slants : Option Slopes := none
  widths : Option Widths := none
  deriving DecidableEq, Repr

/-- A build plan after `validateAndShimBuildPlans` and target expansion. -/
structure ResolvedPlan where
  family : String
  weights : Weights
  slopes : Slopes
  widths : Widths
  targets : List String
  deriving DecidableEq, Repr

/-- Function `validateAndShimBuildPlans` (verdafile.js lines 909-923): fatal if the family
name is missing (or JS-falsy empty), resolve each axis table against the global
default with `||` (the legacy `slants` alias fills in for `slopes`, with a
non-fatal warning not modelled here).  An axis that is absent both locally and
globally iterates no keys; it is collapsed to the empty table. -/
def validateAndShimBuildPlans (pfx : String) (bp : RawBuildPlan)
    (dWeights : Option Weights) (dSlopes : Option Slopes) (dWidths : Option Widths) :
    Except String ResolvedPlan :=
  match bp.family with
  | none => .error ("Build plan for " ++ pfx ++ " does not have a family name. Exit.")
  | some f =>
    if f = "" then .error ("Build plan for " ++ pfx ++ " does not have a family name. Exit.")
    else .ok
      { family := f
        weights := ((bp.weights).orElse fun _ => dWeights).getD []
        slopes := (((bp.slopes).orElse fun _ => bp.slants).orElse fun _ => dSlopes).getD []
        widths := ((bp.widths).orElse fun _ => dWidths).getD []
        targets := [] }

/-- The suffixes a plan keeps (verdafile.js lines 128-136): every suffix of the
plan's own suffix mapping whose weight key is present in the plan's weight table
and whose slope key maps to a JS-truthy value in the plan's slope table
(`if (weights && !weights[sfi.weight]) continue; if (slopes && !slopes[sfi.slope])
continue;` — an axis table that is absent altogether yields an empty mapping, so
collapsing `undefined` to the empty table is unobservable). -/
def planSuffixes (bp : ResolvedPlan) : Except String (List String) :=
  match getSuffixMapping bp.weights bp.slopes bp.widths with
  | .error e => .error e
  | .ok mapping =>
    .ok (mapping.filterMap fun e =>
      if (bp.weights.lookup e.2.weight).isNone then none
      else match bp.slopes.lookup e.2.slope with
        | none => none
        | some v => if v = "" then none else some e.1)

/-- The output of the `BuildPlans` computed rule (verdafile.js line 139). -/
structure BuildPlansResult where
  fileNameToBpMap : List (String × (String × String))
  buildPlans : List (String × ResolvedPlan)
  deriving DecidableEq, Repr

/-- One iteration of the `BuildPlans` loop (verdafile.js lines 120-137): shim the
plan, expand its targets and record every produced file name in the reverse
index (`fileNameToBpMap[fileName] = { prefix, suffix }`, a silent last-wins
overwrite on collision). -/
def buildPlansStep (dWeights : Option Weights) (dSlopes : Option Slopes)
    (dWidths : Option Widths) (acc : BuildPlansResult) (pe : String × RawBuildPlan) :
    Except String BuildPlansResult :=
  match validateAndShimBuildPlans pe.1 pe.2 dWeights dSlopes dWidths with
  | .error e => .error e
  | .ok bp =>
    match planSuffixes bp with
    | .error e => .error e
    | .ok suffixes =>
      .ok { fileNameToBpMap :=
              suffixes.foldl (fun m sfx => objInsert m (makeFileName pe.1 sfx) (pe.1, sfx))
                acc.fileNameToBpMap
            buildPlans :=
              objInsert acc.buildPlans pe.1
                { bp with targets := suffixes.map (makeFileName pe.1) } }

/-- The loop of the `BuildPlans` computed rule over all raw plans. -/
def buildPlansLoop (dWeights : Option Weights) (dSlopes : Option Slopes)
    (dWidths : Option Widths) :
    List (String × RawBuildPlan) → BuildPlansResult → Except String BuildPlansResult
  | [], acc => .ok acc
  | pe :: rest, acc =>
    match buildPlansStep dWeights dSlopes dWidths acc pe with
    | .error e => .error e
    | .ok acc₁ => buildPlansLoop dWeights dSlopes dWidths rest acc₁

/-- Rule `BuildPlans` (verdafile.js lines 114-140): expand every raw build plan into
its target names and the reverse index from target name to `(prefix, suffix)`. -/
def buildPlansOf (raw : List (String × RawBuildPlan)) (dWeights : Option Weights)
    (dSlopes : Option Slopes) (dWidths : Option Widths) : Except String BuildPlansResult :=
  buildPlansLoop dWeights dSlopes dWidths raw ⟨[], []⟩

/-- The `(prefix, suffix)` pairs one raw plan contributes to the reverse index
(empty if its expansion fails — in that case the whole `BuildPlans` rule fails
anyway). -/
def planPairs (dWeights : Option Weights) (dSlopes : Option Slopes) (dWidths : Option Widths)
    (pe : String × RawBuildPlan) : List (String × String) :=
  match validateAndShimBuildPlans pe.1 pe.2 dWeights dSlopes dWidths with
  | .error _ => []
  | .ok bp =>
    match planSuffixes bp with
    | .error _ => []
    | .ok suffixes => suffixes.map fun s => (pe.1, s)

/-- All `(prefix, suffix)` pairs recorded in the reverse index, in insertion
order over all plans of the build. -/
def recordedPairs (dWeights : Option Weights) (dSlopes : Option Slopes)
    (dWidths : Option Widths) : List (String × RawBuildPlan) → List (String × String)
  | [] => []
  | pe :: rest =>
    planPairs dWeights dSlopes dWidths pe ++ recordedPairs dWeights dSlopes dWidths rest

/-! ## Collection planning (verdafile.js lines 258-332) -/

/-- One `collectPlans` entry; `fromList` models its `from` array. -/
structure CollectEntry where
  fromList : List String
  deriving DecidableEq, Repr

/-- The `collectConfig` table: which axes a collection distinguishes in its
container names (absent flags are JS-falsy). -/
structure CollectConfig where
  distinguishWeights : Bool := false
  distinguishWidths : Bool := false
  distinguishSlope : Bool := false
  deriving DecidableEq, Repr

/-- Function `fnStandardTtc` (verdafile.js lines 324-332): the container naming function;
each axis not distinguished by the collection is folded to its normal key before
the suffix is built. -/
def fnStandardTtc (cfg : CollectConfig) (pfx w wd s : String) : String :=
  pfx ++ "-" ++
    makeSuffix (if cfg.distinguishWeights then w else WEIGHT_NORMAL)
      (if cfg.distinguishWidths then wd else WIDTH_NORMAL)
      (if cfg.distinguishSlope then s else SLOPE_NORMAL)
      DEFAULT_SUBFAMILY

/-- The output of `getCollectPlans` (verdafile.js line 322). -/
structure CollectPlansResult where
  glyfTtcComposition : List (String × List (String × String))
  ttcComposition : List (String × List String)
  ttcContents : List (String × List String)
  groupDecomposition : List (String × List String)
  deriving DecidableEq, Repr

/-- The state threaded through one collection's inner loops: the two composition
maps under construction plus the collection's `groupFileList` set. -/
abbrev CollectState :=
  (List (String × List (String × String))) × (List (String × List String)) × List String

/-- Innermost loop of `getCollectPlans` (verdafile.js lines 291-317): for one
source plan, iterate every suffix of the global standard suffix mapping; if the
source plan does not produce the corresponding target file, the suffix is
silently skipped (sparse-axis tolerance), otherwise the `(dir, file)` pair is
appended to the intermediate (`glyf`) container's list, the intermediate
container name to the top-level container's list, and the top-level name to the
collection's content set. -/
def collectSuffixLoop (cfg : CollectConfig) (collectPfx pfx : String)
    (targets : List String) :
    List (String × SuffixMappingItem) → CollectState → CollectState
  | [], st => st
  | (suffix, sfi) :: rest, st =>
    let ttcFileName := fnStandardTtc cfg collectPfx sfi.weight sfi.width sfi.slope
    let glyfTtcFileName :=
      fnStandardTtc { cfg with distinguishWidths := true }
        collectPfx sfi.weight sfi.width sfi.slope
    let ttfTargetName := makeFileName pfx suffix
    if ttfTargetName ∈ targets then
      collectSuffixLoop cfg collectPfx pfx targets rest
        (objUpdate st.1 glyfTtcFileName (pfx, ttfTargetName),
         objUpdate st.2.1 ttcFileName glyfTtcFileName,
         setAdd st.2.2 ttcFileName)
    else collectSuffixLoop cfg collectPfx pfx targets rest st

/-- Middle loop of `getCollectPlans` (verdafile.js lines 288-317): iterate the
collection's source prefixes; `target.need(BuildPlanOf(prefix))` fails when the
prefix has no build plan (verdafile.js line 145). -/
def collectFromLoop (bps : List (String × ResolvedPlan)) (cfg : CollectConfig)
    (collectPfx : String) (sm : List (String × SuffixMappingItem)) :
    List String → CollectState → Except String CollectState
  | [], st => .ok st
  | pfx :: rest, st =>
    match bps.lookup pfx with
    | none => .error ("Build plan for '" ++ pfx ++ "' not found.")
    | some gri =>
      collectFromLoop bps cfg collectPfx sm rest
        (collectSuffixLoop cfg collectPfx pfx gri.targets sm st)

/-- Outer loop of `getCollectPlans` (verdafile.js lines 283-321): a collection
with an empty (or absent) `from` list is skipped entirely. -/
def collectLoop (bps : List (String × ResolvedPlan)) (cfg : CollectConfig)
    (sm : List (String × SuffixMappingItem)) :
    List (String × CollectEntry) → CollectPlansResult → Except String CollectPlansResult
  | [], acc => .ok acc
  | ce :: rest, acc =>
    if ce.2.fromList.isEmpty then collectLoop bps cfg sm rest acc
    else
      match collectFromLoop bps cfg ce.1 sm ce.2.fromList
          (acc.glyfTtcComposition, acc.ttcComposition, []) with
      | .error e => .error e
      | .ok st =>
        collectLoop bps cfg sm rest
          { glyfTtcComposition := st.1
            ttcComposition := st.2.1
            ttcContents := objInsert acc.ttcContents ce.1 st.2.2
            groupDecomposition := objInsert acc.groupDecomposition ce.1 ce.2.fromList }

/-- Function `getCollectPlans` (verdafile.js lines 278-323). -/
def getCollectPlans (bps : List (String × ResolvedPlan))
    (rawCollectPlans : List (String × CollectEntry))
    (sm : List (String × SuffixMappingItem)) (cfg : CollectConfig) :
    Except String CollectPlansResult :=
  collectLoop bps cfg sm rawCollectPlans ⟨[], [], [], []⟩

/-- The part list actually consumed by the TTC build step `ExportTtcFile`
(verdafile.js line 454): `Array.from(new Set(cp.ttcComposition[f]))`. -/
def ttcConsumerParts (cp : CollectPlansResult) (f : String) : List String :=
  jsSetDedup ((cp.ttcComposition.lookup f).getD [])

/-! ## Configuration loading and merging (verdafile.js lines 76-88) -/

/-- The top-level tables of one parsed configuration file that the build logic
reads.  `buildOptions` values are opaque strings (only key-level merge semantics
matter). -/
structure TomlFile where
  buildPlans : List (String × RawBuildPlan)
  buildOptions : Option (List (String × String)) := none
  weights : Option Weights := none
  slopes : Option Slopes := none
  widths : Option Widths := none
  collectPlans : Option (List (String × CollectEntry)) := none
  collectConfig : Option CollectConfig := none
  deriving DecidableEq, Repr

/-- JS `Object.assign(t, s)`: write every own key of `s` into `t` in order. -/
def objAssign (t s : List (String × α)) : List (String × α) :=
  s.foldl (fun m e => objInsert m e.1 e.2) t

/-- The `RawPlans` computed rule (verdafile.js lines 76-88): default
`buildOptions` to an empty table, then, when the private overlay file exists,
`Object.assign` its `buildPlans` and `buildOptions` tables over the base ones.
All other top-level tables are taken from the base file untouched. -/
def mergeRawPlans (base : TomlFile) (priv : Option TomlFile) : TomlFile :=
  let base₁ := { base with buildOptions := some (base.buildOptions.getD []) }
  match priv with
  | none => base₁
  | some p =>
    { base₁ with
      buildPlans := objAssign base₁.buildPlans p.buildPlans
      buildOptions := some (objAssign (base.buildOptions.getD []) (p.buildOptions.getD [])) }

/-! ## The task-graph single-flight evaluator (modelled from the spec)

The memoized dependency evaluator itself is the external `verda` package
(`require("verda")`, verdafile.js line 4); its code is not under `src/`.
Following the spec (§3 "TaskGraph Node", §4.5, §8), a node is identified by a
key, starts `unevaluated`, moves to `evaluating` on the first `need` request,
collects further concurrent requesters as waiters of the same in-flight
evaluation, and on completion settles to a value that is delivered to every
requester; a request against a settled node is served from the cache. -/

/-- Modelled from the spec: the state of one task-graph node
(`unevaluated → evaluating → settled`). -/
inductive NodeState (V : Type u) where
  | unevaluated
  | evaluating (waiters : List Nat)
  | settled (v : V)
  deriving DecidableEq, Repr

/-- Modelled from the spec: the evaluator state — the node table, the log of
evaluation starts, and the log of delivered results `(requester, key, value)`. -/
structure TaskGraphState (V : Type u) where
  nodes : List (String × NodeState V)
  evalStarts : List String
  delivered : List (Nat × String × V)

/-- Modelled from the spec: the observable events — a `need` request by requester
`r` for node `k`, and the completion of node `k`'s single evaluation with value
`v`. -/
inductive TaskEvent (V : Type u) where
  | needReq (r : Nat) (k : String)
  | complete (k : String) (v : V)

/-- Modelled from the spec: one scheduler step.  A `need` for an unknown node
starts its evaluation (logged in `evalStarts`); a `need` for an evaluating node
joins the waiters of the in-flight evaluation; a `need` for a settled node is
answered from the cache.  Completion settles the node and delivers the value to
all waiters; completion of a non-evaluating node is a no-op. -/
def taskStep (st : TaskGraphState V) : TaskEvent V → TaskGraphState V
  | .needReq r k =>
    match st.nodes.lookup k with
    | none =>
      { st with nodes := objInsert st.nodes k (.evaluating [r])
                evalStarts := st.evalStarts ++ [k] }
    | some .unevaluated =>
      { st with nodes := objInsert st.nodes k (.evaluating [r])
                evalStarts := st.evalStarts ++ [k] }
    | some (.evaluating ws) =>
      { st with nodes := objInsert st.nodes k (.evaluating (ws ++ [r])) }
    | some (.settled v) =>
      { st with delivered := st.delivered ++ [(r, k, v)] }
  | .complete k v =>
    match st.nodes.lookup k with
    | some (.evaluating ws) =>
      { st with nodes := objInsert st.nodes k (.settled v)
                delivered := st.delivered ++ ws.map fun r => (r, k, v) }
    | _ => st

/-- Modelled from the spec: run the evaluator over a sequence of events from the
empty graph. -/
def taskRun (es : List (TaskEvent V)) : TaskGraphState V :=
  es.foldl taskStep ⟨[], [], []⟩

/-! ## Lemmas about the JS-object model -/

theorem lookup_objInsert_self (m : List (String × α)) (k : String) (v : α) :
    (objInsert m k v).lookup k = some v := by
  induction m with
  | nil => simp [objInsert, List.lookup]
  | cons h t ih =>
    by_cases hk : h.1 = k
    · simp [objInsert, hk, List.lookup]
    · have hb : (k == h.1) = false := beq_eq_false_iff_ne.mpr (Ne.symm hk)
      simpa [objInsert, hk, List.lookup, hb] using ih

theorem lookup_objInsert_ne (m : List (String × α)) (k k' : String) (v : α) (h : k' ≠ k) :
    (objInsert m k v).lookup k' = m.lookup k' := by
  have hb : (k' == k) = false := beq_eq_false_iff_ne.mpr h
  induction m with
  | nil => simp [objInsert, List.lookup, hb]
  | cons hd t ih =>
    by_cases hk : hd.1 = k
    · subst hk
      simp [objInsert, List.lookup, hb]
    · by_cases hk' : k' = hd.1
      · simp [objInsert, hk, List.lookup, hk']
      · have hb' : (k' == hd.1) = false := beq_eq_false_iff_ne.mpr hk'
        simpa [objInsert, hk, List.lookup, hb'] using ih

theorem mem_objInsert {m : List (String × α)} {k : String} {v : α} {p : String × α}
    (h : p ∈ objInsert m k v) : p ∈ m ∨ p = (k, v) := by
  induction m with
  | nil => simpa [objInsert] using h
  | cons hd t ih =>
    by_cases hk : hd.1 = k
    · simp [objInsert, hk] at h
      rcases h with h | h
      · right; simpa using h
      · left; simp [h]
    · simp [objInsert, hk] at h
      rcases h with h | h
      · left; simp [h]
      · rcases ih h with h₁ | h₁
        · left; simp [h₁]
        · right; exact h₁

theorem lookup_objUpdate_self (m : List (String × List α)) (k : String) (v : α) :
    (objUpdate m k v).lookup k = some (((m.lookup k).getD []) ++ [v]) := by
  induction m with
  | nil => simp [objUpdate, List.lookup]
  | cons h t ih =>
    by_cases hk : h.1 = k
    · subst hk
      simp [objUpdate, List.lookup]
    · have hb : (k == h.1) = false := beq_eq_false_iff_ne.mpr (Ne.symm hk)
      simpa [objUpdate, hk, List.lookup, hb] using ih

theorem lookup_objUpdate_ne (m : List (String × List α)) (k k' : String) (v : α)
    (h : k' ≠ k) : (objUpdate m k v).lookup k' = m.lookup k' := by
  have hb : (k' == k) = false := beq_eq_false_iff_ne.mpr h
  induction m with
  | nil => simp [objUpdate, List.lookup, hb]
  | cons hd t ih =>
    by_cases hk : hd.1 = k
    · subst hk
      simp [objUpdate, List.lookup, hb]
    · by_cases hk' : k' = hd.1
      · simp [objUpdate, hk, List.lookup, hk']
      · have hb' : (k' == hd.1) = false := beq_eq_false_iff_ne.mpr hk'
        simpa [objUpdate, hk, List.lookup, hb'] using ih

theorem lookup_objUpdate_some (m : List (String × List α)) (k k' : String) (v : α)
    {l : List α} (h : m.lookup k' = some l) :
    ∃ l', (objUpdate m k v).lookup k' = some l' := by
  by_cases hk : k' = k
  · subst hk
    exact ⟨_, lookup_objUpdate_self m k' v⟩
  · refine ⟨l, ?_⟩
    rw [lookup_objUpdate_ne m k k' v hk]
    exact h

theorem lookup_objUpdate_isSome (m : List (String × List α)) (k k' : String) (v : α)
    (h : (m.lookup k').isSome) : ((objUpdate m k v).lookup k').isSome := by
  by_cases hk : k' = k
  · subst hk; simp [lookup_objUpdate_self]
  · rwa [lookup_objUpdate_ne m k k' v hk]

theorem mem_setAdd [DecidableEq α] {l : List α} {x y : α} :
    x ∈ setAdd l y ↔ x ∈ l ∨ x = y := by
  by_cases h : y ∈ l
  · simp only [setAdd, if_pos h]
    constructor
    · exact Or.inl
    · rintro (hx | rfl) <;> [exact hx; exact h]
  · simp [setAdd, if_neg h]

theorem nodup_setAdd [DecidableEq α] {l : List α} (h : l.Nodup) (y : α) :
    (setAdd l y).Nodup := by
  by_cases hy : y ∈ l
  · simpa [setAdd, hy]
  · simp [setAdd, hy, List.nodup_append, h]

theorem mem_foldl_setAdd [DecidableEq α] (l acc : List α) (x : α) :
    x ∈ l.foldl setAdd acc ↔ x ∈ acc ∨ x ∈ l := by
  induction l generalizing acc with
  | nil => simp
  | cons h t ih =>
    simp only [List.foldl_cons, ih, mem_setAdd, List.mem_cons]
    tauto

theorem nodup_foldl_setAdd [DecidableEq α] (l : List α) :
    ∀ acc : List α, acc.Nodup → (l.foldl setAdd acc).Nodup := by
  induction l with
  | nil => intro acc h; simpa
  | cons hd t ih => intro acc h; exact ih _ (nodup_setAdd h hd)

theorem foldl_setAdd_spec [DecidableEq α] (l : List α) :
    ∀ acc : List α, ∃ l', l.foldl setAdd acc = acc ++ l' ∧ l'.Sublist l ∧ ∀ x ∈ l', x ∉ acc := by
  induction l with
  | nil => intro acc; exact ⟨[], by simp⟩
  | cons hd t ih =>
    intro acc
    by_cases hm : hd ∈ acc
    · rcases ih acc with ⟨l', he, hs, hn⟩
      refine ⟨l', ?_, hs.cons hd, hn⟩
      simpa [setAdd, hm] using he
    · rcases ih (acc ++ [hd]) with ⟨l', he, hs, hn⟩
      refine ⟨hd :: l', ?_, hs.cons₂ hd, ?_⟩
      · simpa [setAdd, hm] using he
      · intro x hx
        rcases List.mem_cons.mp hx with rfl | hx
        · exact hm
        · intro hxa; exact hn x hx (by simp [hxa])

theorem jsSetDedup_nodup [DecidableEq α] (l : List α) : (jsSetDedup l).Nodup :=
  nodup_foldl_setAdd l [] List.nodup_nil

theorem jsSetDedup_sublist [DecidableEq α] (l : List α) : (jsSetDedup l).Sublist l := by
  rcases foldl_setAdd_spec l [] with ⟨l', he, hs, _⟩
  simpa [jsSetDedup, he] using hs

theorem mem_jsSetDedup [DecidableEq α] {l : List α} {x : α} :
    x ∈ jsSetDedup l ↔ x ∈ l := by
  simp [jsSetDedup, mem_foldl_setAdd]

theorem lookup_eq_some_of_mem {κ β : Type _} [BEq κ] [LawfulBEq κ] {l : List (κ × β)}
    {k : κ} {v : β} (hnd : (l.map Prod.fst).Nodup) (hm : (k, v) ∈ l) :
    l.lookup k = some v := by
  induction l with
  | nil => simp at hm
  | cons hd t ih =>
    have hnd' : (hd.1 :: t.map Prod.fst).Nodup := by simpa using hnd
    obtain ⟨hh, ht⟩ := List.nodup_cons.mp hnd'
    rcases List.mem_cons.mp hm with rfl | hmt
    · simp [List.lookup]
    · have hk : k ≠ hd.1 := by
        rintro rfl
        exact hh (List.mem_map.mpr ⟨(hd.1, v), hmt, rfl⟩)
      have hb : (k == hd.1) = false := beq_eq_false_iff_ne.mpr hk
      simp only [List.lookup, hb]
      exact ih ht hmt

theorem lookup_eq_none_of_not_mem {κ β : Type _} [BEq κ] [LawfulBEq κ] {l : List (κ × β)}
    {k : κ} (h : k ∉ l.map Prod.fst) : l.lookup k = none := by
  induction l with
  | nil => simp [List.lookup]
  | cons hd t ih =>
    have hk : k ≠ hd.1 := fun he => h (by simp [he])
    have hb : (k == hd.1) = false := beq_eq_false_iff_ne.mpr hk
    simp only [List.lookup, hb]
    exact ih fun hm => h (by simp at hm ⊢; exact Or.inr hm)

/-! ## Behaviour of `nValidate` (used by several claims) -/

theorem nValidate_ok {key : String} {v out : ℚ} {nv : NVal} (hfix : nv.fixup = false)
    (h : nValidate key v nv = .ok out) : out = v ∧ nv.validate v = true := by
  unfold nValidate at h
  rw [hfix] at h
  simp only [Bool.false_eq_true, if_false] at h
  by_cases hv : nv.validate v
  · rw [if_pos hv] at h
    exact ⟨(Except.ok.injEq _ _).mp h |>.symm, hv⟩
  · rw [if_neg hv] at h
    exact absurd h (by simp)

/-- Full characterization of a successful `getSuffixMappingItem`: the looked-up
entries exist, every validated value passed its range check *unchanged* (no
validator of the pipeline has a truthy `fixup` property, so no value is ever
coerced), and the three string fields are the raw JS `||` fallbacks. -/
theorem getSuffixMappingItem_ok {weights : Weights} {w : String} {slopes : Slopes}
    {s : String} {widths : Widths} {wd : String} {item : SuffixMappingItem}
    (h : getSuffixMappingItem weights w slopes s widths wd = .ok item) :
    ∃ we wde, weights.lookup w = some we ∧ widths.lookup wd = some wde ∧
      (100 ≤ we.shape ∧ we.shape ≤ 900) ∧ (0 < we.css ∧ we.css < 1000) ∧
      (0 < we.menu ∧ we.menu < 1000) ∧ (433 ≤ wde.shape ∧ wde.shape ≤ 665) ∧
      (1 ≤ wde.menu ∧ wde.menu ≤ 9 ∧ wde.menu.den = 1) ∧
      item = { weight := w, shapeWeight := we.shape, cssWeight := we.css,
               menuWeight := we.menu, width := wd, shapeWidth := wde.shape,
               cssStretch := jsOr wde.css wd, menuWidth := wde.menu,
               slope := s, cssStyle := jsOr (slopes.lookup s) s,
               menuSlope := jsOr (slopes.lookup s) s } := by
  unfold getSuffixMappingItem at h
  cases hw : weights.lookup w with
  | none => simp only [hw] at h; exact Except.noConfusion h
  | some we =>
  cases hwd : widths.lookup wd with
  | none => simp only [hw, hwd] at h; exact Except.noConfusion h
  | some wde =>
  simp only [hw, hwd] at h
  refine ⟨we, wde, rfl, rfl, ?_⟩
  cases h1 : nValidate ("Shape weight of " ++ w) we.shape VlShapeWeight with
  | error e => simp only [h1] at h; exact Except.noConfusion h
  | ok sw =>
  cases h2 : nValidate ("CSS weight of " ++ w) we.css VlCssWeight with
  | error e => simp only [h1, h2] at h; exact Except.noConfusion h
  | ok cw =>
  cases h3 : nValidate ("Menu weight of " ++ w) we.menu VlMenuWeight with
  | error e => simp only [h1, h2, h3] at h; exact Except.noConfusion h
  | ok mw =>
  cases h4 : nValidate ("Shape width of " ++ wd) wde.shape VlShapeWidth with
  | error e => simp only [h1, h2, h3, h4] at h; exact Except.noConfusion h
  | ok swd =>
  cases h5 : nValidate ("Menu width of " ++ wd) wde.menu VlMenuWidth with
  | error e => simp only [h1, h2, h3, h4, h5] at h; exact Except.noConfusion h
  | ok mwd =>
  simp only [h1, h2, h3, h4, h5, Except.ok.injEq] at h
  obtain ⟨e1, v1⟩ := nValidate_ok rfl h1
  obtain ⟨e2, v2⟩ := nValidate_ok rfl h2
  obtain ⟨e3, v3⟩ := nValidate_ok rfl h3
  obtain ⟨e4, v4⟩ := nValidate_ok rfl h4
  obtain ⟨e5, v5⟩ := nValidate_ok rfl h5
  refine ⟨?_, ?_, ?_, ?_, ?_, ?_⟩
  · exact of_decide_eq_true (by simpa [VlShapeWeight] using v1)
  · exact of_decide_eq_true (by simpa [VlCssWeight] using v2)
  · exact of_decide_eq_true (by simpa [VlMenuWeight, VlCssWeight] using v3)
  · exact of_decide_eq_true (by simpa [VlShapeWidth] using v4)
  · exact of_decide_eq_true (by simpa [VlMenuWidth] using v5)
  · rw [← h]
    subst e1 e2 e3 e4 e5
    rfl

/-! ## Shared concrete configurations (from the spec's scenarios) -/

/-- The weight table of the spec's §8 scenario: `weights = {regular: {shape:400,
css:400, menu:400}}`. -/
def regularWeights : Weights := [("regular", ⟨400, 400, 400⟩)]

/-- The slope table of the spec's §8 scenario: `slopes = {upright: "normal"}`. -/
def uprightSlopes : Slopes := [("upright", "normal")]

/-- The width table of the spec's §8 scenario: `widths = {normal: {shape:500,
css:"normal", menu:5}}`. -/
def normalWidths : Widths := [("normal", ⟨500, some "normal", 5⟩)]

/-- The raw `"sans"` build plan of the spec's §8 scenario. -/
def sansRawPlan : RawBuildPlan :=
  { family := some "Sans", weights := some regularWeights,
    slopes := some uprightSlopes, widths := some normalWidths }

/-- The expanded result for the `"sans"` plan (total by construction; the
`.error` arm is unreachable, see `c2_single_regular_target`). -/
def sansBuildResult : BuildPlansResult :=
  match buildPlansOf [("sans", sansRawPlan)] none none none with
  | .ok r => r
  | .error _ => ⟨[], []⟩

end Verdafile

namespace Verdafile

/-! ## Claim theorems -/

/-- Claim C2: for a plan whose resolved axes consist only of the normal entries
(weight key `"regular"`, slope key `"upright"`, width key `"normal"`), the
suffix concatenation is empty and is replaced by the default subfamily token
`"regular"`, so a plan with prefix `"sans"` expands to exactly one target name,
`"sans-regular"` (and the reverse index records exactly that pair). -/
theorem c2_single_regular_target :
    buildPlansOf [("sans", sansRawPlan)] none none none = .ok sansBuildResult
    ∧ (sansBuildResult.buildPlans.lookup "sans").map ResolvedPlan.targets
        = some ["sans-regular"]
    ∧ sansBuildResult.fileNameToBpMap = [("sans-regular", ("sans", "regular"))] := by
  refine ⟨by rfl, by decide, by decide⟩

/-- Claim C5: the legacy width-grade fixup satisfies `fix 5 = 500` exactly;
`fix 9 = round (500 · (√(576/500))⁴)` (the literal real-number formula of
verdafile.js line 966); it is strictly monotonic over the integer legacy grades
`3..9`; and any input outside the grade range `[3, 9]` is returned unchanged. -/
theorem c5_width_grade_fixup :
    vlShapeWidthFix 5 = 500
  ∧ vlShapeWidthFix 9 = ((round ((500 : ℝ) * Real.sqrt ((576 : ℝ) / 500) ^ (4 : ℕ)) : ℤ) : ℚ)
  ∧ (∀ x y : ℤ, 3 ≤ x → x < y → y ≤ 9 → vlShapeWidthFix (x : ℚ) < vlShapeWidthFix (y : ℚ))
  ∧ (∀ q : ℚ, ¬(3 ≤ q ∧ q ≤ 9) → vlShapeWidthFix q = q) := by
  refine ⟨by decide, ?_, ?_, ?_⟩
  · have h1 : Real.sqrt ((576 : ℝ) / 500) ^ (4 : ℕ) = ((576 : ℝ) / 500) ^ (2 : ℕ) := by
      rw [show (4 : ℕ) = 2 * 2 from rfl, pow_mul,
        Real.sq_sqrt (by norm_num : (0 : ℝ) ≤ 576 / 500)]
    have h2 : (500 : ℝ) * ((576 : ℝ) / 500) ^ (2 : ℕ) = ((82944 / 125 : ℚ) : ℝ) := by
      push_cast
      norm_num
    have h664 : round ((82944 / 125 : ℚ)) = 664 := by
      rw [round_eq]
      norm_num [Int.floor_eq_iff]
    rw [h1, h2, Rat.round_cast, h664]
    decide
  · intro x y hx hxy hy
    have hx8 : x ≤ 8 := by omega
    have hy4 : 4 ≤ y := by omega
    interval_cases x <;> interval_cases y <;> first | omega | decide
  · intro q hq
    unfold vlShapeWidthFix vlShapeWidthFixRun
    rw [if_neg fun hc => hq ⟨hc.1, hc.2.1⟩]

/-- Claim C6: the legacy width-grade fixup is memoized per distinct input grade:
a first call on a grade in `3..9` not yet in the memory computes the corrected
value, caches it, and emits the legacy-grade warning exactly once; a call whose
grade is already cached returns the identical cached value, leaves the memory
unchanged and emits no warning; and a cached entry survives every later call
with any argument, so at most one warning is emitted per grade per process. -/
theorem c6_fixup_memoized :
    (∀ (mem : FixMemory) (x : ℚ), 3 ≤ x → x ≤ 9 → x.den = 1 → mem.lookup x = none →
      vlShapeWidthFixRun mem x =
        (((widthGradeCorrect x.num : ℤ) : ℚ),
          (x, ((widthGradeCorrect x.num : ℤ) : ℚ)) :: mem,
          [widthGradeWarning x ((widthGradeCorrect x.num : ℤ) : ℚ)]))
  ∧ (∀ (mem : FixMemory) (x c : ℚ), 3 ≤ x → x ≤ 9 → x.den = 1 → mem.lookup x = some c →
      vlShapeWidthFixRun mem x = (c, mem, []))
  ∧ (∀ (mem : FixMemory) (x c y : ℚ), mem.lookup x = some c →
      ((vlShapeWidthFixRun mem y).2.1).lookup x = some c) := by
  refine ⟨?_, ?_, ?_⟩
  · intro mem x h3 h9 hden hlk
    unfold vlShapeWidthFixRun
    rw [if_pos ⟨h3, h9, hden⟩, hlk]
  · intro mem x c h3 h9 hden hlk
    unfold vlShapeWidthFixRun
    rw [if_pos ⟨h3, h9, hden⟩, hlk]
  · intro mem x c y hlk
    unfold vlShapeWidthFixRun
    by_cases hy : 3 ≤ y ∧ y ≤ 9 ∧ y.den = 1
    · rw [if_pos hy]
      cases hylk : mem.lookup y with
      | some cy => simpa using hlk
      | none =>
        have hxy : x ≠ y := by
          rintro rfl
          rw [hlk] at hylk
          exact Option.noConfusion hylk
        have hb : (x == y) = false := beq_eq_false_iff_ne.mpr hxy
        simpa [List.lookup, hb] using hlk
    · rw [if_neg hy]
      simpa using hlk

/-- Claim C6, witness: instantiation of `c6_fixup_memoized` at grade `5` — the
first call from the empty memory computes, caches and warns; the immediately
repeated call returns the identical cached `500` with no warning. -/
theorem c6_fixup_memoized_witness :
    vlShapeWidthFixRun [] 5 = (500, [((5 : ℚ), (500 : ℚ))], [widthGradeWarning 5 500])
    ∧ vlShapeWidthFixRun [((5 : ℚ), (500 : ℚ))] 5 = (500, [((5 : ℚ), (500 : ℚ))], []) := by
  constructor
  · have h := c6_fixup_memoized.1 [] 5 (by decide) (by decide) (by decide) (by decide)
    simpa using h
  · exact c6_fixup_memoized.2.1 [((5 : ℚ), (500 : ℚ))] 5 500
      (by decide) (by decide) (by decide) (by decide)

/-- Claim C10: every suffix-mapping entry has `cssStyle` and `menuSlope` equal,
both being the slope's configured value when JS-truthy and the slope key name
otherwise (`slopes[s] || s`), and `cssStretch` falls back to the width key name
when the width entry's `css` field is absent or empty (`widths[wd].css || wd`);
the three string fields are raw fallbacks, not outputs of the numeric
validator. -/
theorem c10_string_fields :
    ∀ (weights : Weights) (w : String) (slopes : Slopes) (s : String)
      (widths : Widths) (wd : String) (item : SuffixMappingItem) (wde : WidthEntry),
      getSuffixMappingItem weights w slopes s widths wd = .ok item →
      widths.lookup wd = some wde →
      item.cssStyle = jsOr (slopes.lookup s) s
      ∧ item.menuSlope = item.cssStyle
      ∧ item.cssStretch = jsOr wde.css wd := by
  intro weights w slopes s widths wd item wde h hwd
  obtain ⟨we, wde', _, hwd', _, _, _, _, _, hitem⟩ := getSuffixMappingItem_ok h
  rw [hwd] at hwd'
  injection hwd' with he
  subst he
  subst hitem
  exact ⟨rfl, rfl, rfl⟩

/-- Claim C10, witness: instantiation of `c10_string_fields` on the spec's §8
scenario tables at `(regular, upright, normal)`. -/
theorem c10_string_fields_witness :
    ({ weight := "regular", shapeWeight := 400, cssWeight := 400, menuWeight := 400,
       width := "normal", shapeWidth := 500, cssStretch := "normal", menuWidth := 5,
       slope := "upright", cssStyle := "normal",
       menuSlope := "normal" } : SuffixMappingItem).cssStyle
      = jsOr (uprightSlopes.lookup "upright") "upright" :=
  (c10_string_fields regularWeights "regular" uprightSlopes "upright" normalWidths "normal"
    _ ⟨500, some "normal", 5⟩ (by rfl) (by rfl)).1

end Verdafile

namespace Verdafile

/-! ## Success analysis of the suffix-mapping loops (for C4) -/

theorem suffixMapWidths_ok_items {weights : Weights} {w : String} {slopes : Slopes}
    {s : String} {widths : Widths} :
    ∀ {iter : List (String × WidthEntry)} {m m'},
      suffixMapWidths weights w slopes s widths iter m = .ok m' →
      ∀ p ∈ iter, ∃ item, getSuffixMappingItem weights w slopes s widths p.1 = .ok item := by
  intro iter
  induction iter with
  | nil => intro m m' h p hp; simp at hp
  | cons hd t ih =>
    intro m m' h p hp
    simp only [suffixMapWidths] at h
    cases hi : getSuffixMappingItem weights w slopes s widths hd.1 with
    | error e => simp only [hi] at h; exact Except.noConfusion h
    | ok item =>
      simp only [hi] at h
      rcases List.mem_cons.mp hp with rfl | hp
      · exact ⟨item, hi⟩
      · exact ih h p hp

theorem suffixMapSlopes_ok {weights : Weights} {w : String} {slopes : Slopes}
    {widths : Widths} :
    ∀ {iter : List (String × String)} {m m'},
      suffixMapSlopes weights w slopes widths iter m = .ok m' →
      ∀ se ∈ iter, ∃ m₁ m₂, suffixMapWidths weights w slopes se.1 widths widths m₁ = .ok m₂ := by
  intro iter
  induction iter with
  | nil => intro m m' h se hse; simp at hse
  | cons hd t ih =>
    intro m m' h se hse
    simp only [suffixMapSlopes] at h
    cases hw : suffixMapWidths weights w slopes hd.1 widths widths m with
    | error e => simp only [hw] at h; exact Except.noConfusion h
    | ok m₁ =>
      simp only [hw] at h
      rcases List.mem_cons.mp hse with rfl | hse
      · exact ⟨m, m₁, hw⟩
      · exact ih h se hse

theorem suffixMapWeights_ok {weights : Weights} {slopes : Slopes} {widths : Widths} :
    ∀ {iter : List (String × WeightEntry)} {m m'},
      suffixMapWeights weights slopes widths iter m = .ok m' →
      ∀ we ∈ iter, ∃ m₁ m₂, suffixMapSlopes weights we.1 slopes widths slopes m₁ = .ok m₂ := by
  intro iter
  induction iter with
  | nil => intro m m' h we hwe; simp at hwe
  | cons hd t ih =>
    intro m m' h we hwe
    simp only [suffixMapWeights] at h
    cases hs : suffixMapSlopes weights hd.1 slopes widths slopes m with
    | error e => simp only [hs] at h; exact Except.noConfusion h
    | ok m₁ =>
      simp only [hs] at h
      rcases List.mem_cons.mp hwe with rfl | hwe
      · exact ⟨m, m₁, hs⟩
      · exact ih h we hwe

theorem getSuffixMapping_ok_shape_valid {weights : Weights} {slopes : Slopes}
    {widths : Widths} {m : List (String × SuffixMappingItem)}
    (h : getSuffixMapping weights slopes widths = .ok m)
    (hs : slopes ≠ []) (hwd : widths ≠ []) (hnd : (weights.map Prod.fst).Nodup) :
    ∀ w e, (w, e) ∈ weights → 100 ≤ e.shape ∧ e.shape ≤ 900 := by
  intro w e hmem
  obtain ⟨m₁, m₂, hsl⟩ := suffixMapWeights_ok h (w, e) hmem
  obtain ⟨s₀, srest, rfl⟩ := List.exists_cons_of_ne_nil hs
  obtain ⟨m₃, m₄, hwl⟩ := suffixMapSlopes_ok hsl s₀ (List.mem_cons_self s₀ srest)
  obtain ⟨wd₀, wdrest, rfl⟩ := List.exists_cons_of_ne_nil hwd
  obtain ⟨item, hitem⟩ := suffixMapWidths_ok_items hwl wd₀ (List.mem_cons_self wd₀ wdrest)
  obtain ⟨we, wde, hw, _, hbounds, _⟩ := getSuffixMappingItem_ok hitem
  rw [lookup_eq_some_of_mem hnd hmem] at hw
  injection hw with he
  subst he
  exact hbounds

/-! ## Invariant analysis of the suffix-mapping loops (for C4) -/

theorem suffixMapWidths_inv (P : SuffixMappingItem → Prop) {weights : Weights} {w : String}
    {slopes : Slopes} {s : String} {widths : Widths}
    (hstep : ∀ wd item, getSuffixMappingItem weights w slopes s widths wd = .ok item → P item) :
    ∀ {iter : List (String × WidthEntry)} {m m'},
      (∀ p ∈ m, P p.2) → suffixMapWidths weights w slopes s widths iter m = .ok m' →
      ∀ p ∈ m', P p.2 := by
  intro iter
  induction iter with
  | nil =>
    intro m m' hm h
    simp only [suffixMapWidths] at h
    injection h with he
    subst he
    exact hm
  | cons hd t ih =>
    intro m m' hm h
    simp only [suffixMapWidths] at h
    cases hi : getSuffixMappingItem weights w slopes s widths hd.1 with
    | error e => simp only [hi] at h; exact Except.noConfusion h
    | ok item =>
      simp only [hi] at h
      refine ih ?_ h
      intro p hp
      rcases mem_objInsert hp with hp₁ | hpe
      · exact hm p hp₁
      · rw [hpe]
        exact hstep hd.1 item hi

theorem suffixMapSlopes_inv (P : SuffixMappingItem → Prop) {weights : Weights} {w : String}
    {slopes : Slopes} {widths : Widths}
    (hstep : ∀ s wd item, getSuffixMappingItem weights w slopes s widths wd = .ok item → P item) :
    ∀ {iter : List (String × String)} {m m'},
      (∀ p ∈ m, P p.2) → suffixMapSlopes weights w slopes widths iter m = .ok m' →
      ∀ p ∈ m', P p.2 := by
  intro iter
  induction iter with
  | nil =>
    intro m m' hm h
    simp only [suffixMapSlopes] at h
    injection h with he
    subst he
    exact hm
  | cons hd t ih =>
    intro m m' hm h
    simp only [suffixMapSlopes] at h
    cases hw : suffixMapWidths weights w slopes hd.1 widths widths m with
    | error e => simp only [hw] at h; exact Except.noConfusion h
    | ok m₁ =>
      simp only [hw] at h
      exact ih (suffixMapWidths_inv P (hstep hd.1) hm hw) h

theorem suffixMapWeights_inv (P : SuffixMappingItem → Prop) {weights : Weights}
    {slopes : Slopes} {widths : Widths}
    (hstep : ∀ w s wd item,
      getSuffixMappingItem weights w slopes s widths wd = .ok item → P item) :
    ∀ {iter : List (String × WeightEntry)} {m m'},
      (∀ p ∈ m, P p.2) → suffixMapWeights weights slopes widths iter m = .ok m' →
      ∀ p ∈ m', P p.2 := by
  intro iter
  induction iter with
  | nil =>
    intro m m' hm h
    simp only [suffixMapWeights] at h
    injection h with he
    subst he
    exact hm
  | cons hd t ih =>
    intro m m' hm h
    simp only [suffixMapWeights] at h
    cases hs : suffixMapSlopes weights hd.1 slopes widths slopes m with
    | error e => simp only [hs] at h; exact Except.noConfusion h
    | ok m₁ =>
      simp only [hs] at h
      exact ih (suffixMapSlopes_inv P (hstep hd.1) hm hs) h

/-- Claim C4: a weight entry whose `shape` value fails the shape-weight range check
`[100, 900]` makes suffix-mapping resolution fail with a fatal configuration
error (provided the cross product is non-empty, i.e. there is at least one slope
and one width to combine it with); on the spec's concrete scenario (shape weight
950) the error message is exactly `"Shape weight of book950 = 950 is not a valid
number."`, naming the offending key and value; and on success every produced
entry's `shapeWeight` is the configured value itself, in range — never a
silently coerced value. -/
theorem c4_shape_weight_validation :
    (∀ (weights : Weights) (slopes : Slopes) (widths : Widths) (w : String) (e : WeightEntry),
      slopes ≠ [] → widths ≠ [] → (weights.map Prod.fst).Nodup → (w, e) ∈ weights →
      ¬(100 ≤ e.shape ∧ e.shape ≤ 900) →
      ∀ m, getSuffixMapping weights slopes widths ≠ .ok m)
  ∧ getSuffixMapping [("book950", ⟨950, 450, 450⟩)] uprightSlopes normalWidths
      = .error "Shape weight of book950 = 950 is not a valid number."
  ∧ (∀ (weights : Weights) (slopes : Slopes) (widths : Widths)
      (m : List (String × SuffixMappingItem)),
      getSuffixMapping weights slopes widths = .ok m →
      ∀ p ∈ m, ∃ we, weights.lookup p.2.weight = some we ∧ p.2.shapeWeight = we.shape
        ∧ 100 ≤ we.shape ∧ we.shape ≤ 900) := by
  refine ⟨?_, by rfl, ?_⟩
  · intro weights slopes widths w e hs hwd hnd hmem hbad m hok
    exact hbad (getSuffixMapping_ok_shape_valid hok hs hwd hnd w e hmem)
  · intro weights slopes widths m h p hp
    refine suffixMapWeights_inv
      (fun item => ∃ we, weights.lookup item.weight = some we ∧ item.shapeWeight = we.shape
        ∧ 100 ≤ we.shape ∧ we.shape ≤ 900) ?_ (by simp) h p hp
    intro w s wd item hitem
    obtain ⟨we, wde, hw, _, hbounds, _, _, _, _, hi⟩ := getSuffixMappingItem_ok hitem
    subst hi
    exact ⟨we, hw, rfl, hbounds⟩

/-- Claim C4, witness: instantiation of `c4_shape_weight_validation` on the spec's
§8 scenario — a weight table with shape weight 950 makes resolution fail. -/
theorem c4_shape_weight_validation_witness :
    getSuffixMapping [("book950", ⟨950, 450, 450⟩)] uprightSlopes normalWidths ≠ .ok [] :=
  c4_shape_weight_validation.1 [("book950", ⟨950, 450, 450⟩)] uprightSlopes normalWidths
    "book950" ⟨950, 450, 450⟩ (by decide) (by decide) (by decide) (by decide)
    (by norm_num) []

end Verdafile

namespace Verdafile

/-! ## Merge semantics of `Object.assign` (for C8) -/

theorem lookup_objAssign {α : Type _} (s : List (String × α)) :
    ∀ (t : List (String × α)), (s.map Prod.fst).Nodup →
    ∀ k, (objAssign t s).lookup k = ((s.lookup k).or (t.lookup k)) := by
  induction s with
  | nil => intro t _ k; simp [objAssign, List.lookup]
  | cons hd rest ih =>
    intro t hnd k
    have hnd' : (rest.map Prod.fst).Nodup := by
      simpa using (List.nodup_cons.mp (by simpa using hnd)).2
    have hh : hd.1 ∉ rest.map Prod.fst := (List.nodup_cons.mp (by simpa using hnd)).1
    have hstep : objAssign t (hd :: rest) = objAssign (objInsert t hd.1 hd.2) rest := by
      simp [objAssign]
    rw [hstep, ih _ hnd' k]
    by_cases hk : k = hd.1
    · subst hk
      rw [lookup_eq_none_of_not_mem hh, lookup_objInsert_self]
      simp [List.lookup]
    · rw [lookup_objInsert_ne t hd.1 k hd.2 hk]
      have hb : (k == hd.1) = false := beq_eq_false_iff_ne.mpr hk
      simp [List.lookup, hb]

/-- Claim C8: configuration loading merges the private overlay into the base
key-by-key on exactly the `buildPlans` and `buildOptions` tables (the overlay
entry wins whenever both define the same key); every other top-level table of
the result comes only from the base file; and when the overlay is absent the
result is the base configuration with `buildOptions` defaulted to an empty
table. -/
theorem c8_config_merge :
    ∀ (base priv : TomlFile),
      ((priv.buildPlans.map Prod.fst).Nodup →
        ∀ k, (mergeRawPlans base (some priv)).buildPlans.lookup k =
          ((priv.buildPlans.lookup k).or (base.buildPlans.lookup k)))
    ∧ (((priv.buildOptions.getD []).map Prod.fst).Nodup →
        ∀ k, ((mergeRawPlans base (some priv)).buildOptions.getD []).lookup k =
          (((priv.buildOptions.getD []).lookup k).or ((base.buildOptions.getD []).lookup k)))
    ∧ ((mergeRawPlans base (some priv)).weights = base.weights
       ∧ (mergeRawPlans base (some priv)).slopes = base.slopes
       ∧ (mergeRawPlans base (some priv)).widths = base.widths
       ∧ (mergeRawPlans base (some priv)).collectPlans = base.collectPlans
       ∧ (mergeRawPlans base (some priv)).collectConfig = base.collectConfig)
    ∧ mergeRawPlans base none = { base with buildOptions := some (base.buildOptions.getD []) } := by
  intro base priv
  refine ⟨?_, ?_, ⟨rfl, rfl, rfl, rfl, rfl⟩, rfl⟩
  · intro hnd k
    exact lookup_objAssign priv.buildPlans base.buildPlans hnd k
  · intro hnd k
    exact lookup_objAssign (priv.buildOptions.getD []) (base.buildOptions.getD []) hnd k

/-- Claim C8, witness: instantiation of `c8_config_merge` on a two-entry overlay —
the overlay wins on the shared `buildPlans` key. -/
theorem c8_config_merge_witness :
    (mergeRawPlans
        { buildPlans := [("iosevka", { family := some "Iosevka" })] }
        (some { buildPlans := [("iosevka", { family := some "Private Iosevka" })] })
      ).buildPlans.lookup "iosevka"
    = ((([("iosevka", ({ family := some "Private Iosevka" } : RawBuildPlan))]).lookup "iosevka").or
        (([("iosevka", ({ family := some "Iosevka" } : RawBuildPlan))]).lookup "iosevka")) :=
  (c8_config_merge { buildPlans := [("iosevka", { family := some "Iosevka" })] }
    { buildPlans := [("iosevka", { family := some "Private Iosevka" })] }).1
    (by decide) "iosevka"

end Verdafile

namespace Verdafile

/-! ## The reverse index of `BuildPlans` (for C1) -/

/-- One reverse-index write of the `BuildPlans` loop (verdafile.js line 135):
`fileNameToBpMap[fileName] = { prefix, suffix }`. -/
def insPair (m : List (String × (String × String))) (ps : String × String) :
    List (String × (String × String)) :=
  objInsert m (makeFileName ps.1 ps.2) ps

theorem buildPlansStep_ok {dW : Option Weights} {dS : Option Slopes} {dWd : Option Widths}
    {acc : BuildPlansResult} {pe : String × RawBuildPlan} {acc' : BuildPlansResult}
    (h : buildPlansStep dW dS dWd acc pe = .ok acc') :
    ∃ bp suffixes, validateAndShimBuildPlans pe.1 pe.2 dW dS dWd = .ok bp ∧
      planSuffixes bp = .ok suffixes ∧
      acc'.fileNameToBpMap = suffixes.foldl
        (fun m sfx => objInsert m (makeFileName pe.1 sfx) (pe.1, sfx)) acc.fileNameToBpMap := by
  unfold buildPlansStep at h
  cases h1 : validateAndShimBuildPlans pe.1 pe.2 dW dS dWd with
  | error e => simp only [h1] at h; exact Except.noConfusion h
  | ok bp =>
    simp only [h1] at h
    cases h2 : planSuffixes bp with
    | error e => simp only [h2] at h; exact Except.noConfusion h
    | ok ss =>
      simp only [h2] at h
      injection h with he
      exact ⟨bp, ss, rfl, h2, by rw [← he]⟩

theorem planPairs_eq {dW : Option Weights} {dS : Option Slopes} {dWd : Option Widths}
    {pe : String × RawBuildPlan} {bp : ResolvedPlan} {suffixes : List String}
    (h1 : validateAndShimBuildPlans pe.1 pe.2 dW dS dWd = .ok bp)
    (h2 : planSuffixes bp = .ok suffixes) :
    planPairs dW dS dWd pe = suffixes.map fun s => (pe.1, s) := by
  unfold planPairs
  simp only [h1, h2]

theorem buildPlansLoop_map {dW : Option Weights} {dS : Option Slopes} {dWd : Option Widths} :
    ∀ (raw : List (String × RawBuildPlan)) (acc : BuildPlansResult) (r : BuildPlansResult),
      buildPlansLoop dW dS dWd raw acc = .ok r →
      r.fileNameToBpMap =
        (recordedPairs dW dS dWd raw).foldl insPair acc.fileNameToBpMap := by
  intro raw
  induction raw with
  | nil =>
    intro acc r h
    simp only [buildPlansLoop] at h
    injection h with he
    subst he
    simp [recordedPairs]
  | cons pe rest ih =>
    intro acc r h
    simp only [buildPlansLoop] at h
    cases hstep : buildPlansStep dW dS dWd acc pe with
    | error e => simp only [hstep] at h; exact Except.noConfusion h
    | ok acc₁ =>
      simp only [hstep] at h
      obtain ⟨bp, ss, h1, h2, hmap⟩ := buildPlansStep_ok hstep
      rw [ih acc₁ r h, hmap, recordedPairs, planPairs_eq h1 h2, List.foldl_append,
        List.foldl_map]
      rfl

theorem foldl_insPair_lookup :
    ∀ (pairs : List (String × String)) (m₀ : List (String × (String × String)))
      (p s : String),
      (∀ q ∈ pairs, makeFileName q.1 q.2 = makeFileName p s → q = (p, s)) →
      ((p, s) ∈ pairs ∨ m₀.lookup (makeFileName p s) = some (p, s)) →
      (pairs.foldl insPair m₀).lookup (makeFileName p s) = some (p, s) := by
  intro pairs
  induction pairs with
  | nil =>
    intro m₀ p s _ hm
    rcases hm with hm | hm
    · simp at hm
    · simpa using hm
  | cons q rest ih =>
    intro m₀ p s hinj hm
    simp only [List.foldl_cons]
    by_cases hq : makeFileName q.1 q.2 = makeFileName p s
    · have hqe : q = (p, s) := hinj q (List.mem_cons_self q rest) hq
      subst hqe
      refine ih _ p s (fun q' hq' => hinj q' (List.mem_cons_of_mem _ hq')) (Or.inr ?_)
      exact lookup_objInsert_self m₀ (makeFileName p s) (p, s)
    · refine ih _ p s (fun q' hq' => hinj q' (List.mem_cons_of_mem _ hq')) ?_
      rcases hm with hm | hm
      · rcases List.mem_cons.mp hm with rfl | hm
        · exact absurd rfl hq
        · exact Or.inl hm
      · refine Or.inr ?_
        unfold insPair
        rw [lookup_objInsert_ne _ _ _ _ fun he => hq he.symm]
        exact hm

/-- Claim C1, amended: *when* the map from recorded `(prefix, suffix)` pairs to
target names is injective across all plans of the build — a condition the code
itself never checks: a colliding later pair silently overwrites the index entry
(last wins) — the reverse index maps each recorded target name
`prefix ++ "-" ++ suffix` back to exactly the originating pair. -/
theorem c1_roundtrip_of_injective :
    ∀ (raw : List (String × RawBuildPlan)) (dW : Option Weights) (dS : Option Slopes)
      (dWd : Option Widths) (r : BuildPlansResult),
      buildPlansOf raw dW dS dWd = .ok r →
      (∀ p₁ s₁ p₂ s₂, (p₁, s₁) ∈ recordedPairs dW dS dWd raw →
        (p₂, s₂) ∈ recordedPairs dW dS dWd raw →
        makeFileName p₁ s₁ = makeFileName p₂ s₂ → p₁ = p₂ ∧ s₁ = s₂) →
      ∀ p s, (p, s) ∈ recordedPairs dW dS dWd raw →
        r.fileNameToBpMap.lookup (makeFileName p s) = some (p, s) := by
  intro raw dW dS dWd r hok hinj p s hmem
  unfold buildPlansOf at hok
  rw [buildPlansLoop_map raw ⟨[], []⟩ r hok]
  refine foldl_insPair_lookup _ _ p s ?_ (Or.inl hmem)
  rintro ⟨q₁, q₂⟩ hq hname
  obtain ⟨h1, h2⟩ := hinj q₁ q₂ p s hq hmem hname
  rw [h1, h2]

/-- The `"a-b"` plan of the collision counterexample: all-normal axes, so its
only suffix is `"regular"` and its only target is `"a-b-regular"`. -/
def abRawPlan : RawBuildPlan :=
  { family := some "AB", weights := some regularWeights,
    slopes := some uprightSlopes, widths := some normalWidths }

/-- The `"a"` plan of the collision counterexample: its weight key is
`"b-regular"`, so its only suffix is `"b-regular"` and its only target is
`"a-b-regular"` — the same file name the `"a-b"` plan produced. -/
def aRawPlan : RawBuildPlan :=
  { family := some "A", weights := some [("b-regular", ⟨400, 400, 400⟩)],
    slopes := some uprightSlopes, widths := some normalWidths }

/-- The two colliding build plans, in configuration order. -/
def collidingRaws : List (String × RawBuildPlan) :=
  [("a-b", abRawPlan), ("a", aRawPlan)]

/-- Claim C1, counterexample: the pair `("a-b", "regular")` is recorded as a target
by the `"a-b"` plan, yet looking its target name `"a-b-regular"` up in the
reverse index yields `("a", "b-regular")` — the colliding pair recorded later by
the `"a"` plan (silent last-wins overwrite), not the originating pair.  The map
from `(prefix, suffix)` to target names is therefore not injective across plans
and the round-trip of the claim fails as stated. -/
theorem c1_counterexample :
    ("a-b", "regular") ∈ recordedPairs none none none collidingRaws
    ∧ (buildPlansOf collidingRaws none none none).map
        (fun r => r.fileNameToBpMap.lookup (makeFileName "a-b" "regular"))
        = .ok (some ("a", "b-regular"))
    ∧ (("a", "b-regular") : String × String) ≠ ("a-b", "regular") := by
  exact ⟨by decide, by rfl, by decide⟩

/-- Claim C1, witness: instantiation of `c1_roundtrip_of_injective` on the
single-plan `"sans"` configuration, whose only recorded pair is
`("sans", "regular")`. -/
theorem c1_roundtrip_of_injective_witness :
    sansBuildResult.fileNameToBpMap.lookup (makeFileName "sans" "regular")
      = some ("sans", "regular") := by
  have hrec : recordedPairs none none none [("sans", sansRawPlan)]
      = [("sans", "regular")] := by decide
  refine c1_roundtrip_of_injective [("sans", sansRawPlan)] none none none sansBuildResult
    (by rfl) ?_ "sans" "regular" ?_
  · intro p₁ s₁ p₂ s₂ h₁ h₂ hn
    rw [hrec] at h₁ h₂
    simp only [List.mem_singleton, Prod.mk.injEq] at h₁ h₂
    rw [h₁.1, h₁.2, h₂.1, h₂.2]
    exact ⟨rfl, rfl⟩
  · rw [hrec]
    simp

end Verdafile

namespace Verdafile

/-! ## Invariants of the collection planner (for C3) -/

/-- Every `(dir, file)` pair in the intermediate composition map references a
target actually produced by its source group's build plan. -/
def GlyfInv (bps : List (String × ResolvedPlan))
    (glyf : List (String × List (String × String))) : Prop :=
  ∀ g l, glyf.lookup g = some l →
    ∀ e ∈ l, ∃ plan, bps.lookup e.1 = some plan ∧ e.2 ∈ plan.targets

/-- Every intermediate-container name referenced by a top-level composition list
is a key of the intermediate composition map. -/
def TtcInv (glyf : List (String × List (String × String)))
    (ttc : List (String × List String)) : Prop :=
  ∀ t gs, ttc.lookup t = some gs → ∀ g ∈ gs, ∃ l, glyf.lookup g = some l

theorem collectSuffixLoop_inv {bps : List (String × ResolvedPlan)} {cfg : CollectConfig}
    {collectPfx pfx : String} {gri : ResolvedPlan}
    (hplan : bps.lookup pfx = some gri) :
    ∀ (iter : List (String × SuffixMappingItem)) (st : CollectState),
      GlyfInv bps st.1 → TtcInv st.1 st.2.1 →
      GlyfInv bps (collectSuffixLoop cfg collectPfx pfx gri.targets iter st).1 ∧
        TtcInv (collectSuffixLoop cfg collectPfx pfx gri.targets iter st).1
          (collectSuffixLoop cfg collectPfx pfx gri.targets iter st).2.1 := by
  intro iter
  induction iter with
  | nil => intro st h1 h2; exact ⟨h1, h2⟩
  | cons hd t ih =>
    intro st h1 h2
    obtain ⟨suffix, sfi⟩ := hd
    simp only [collectSuffixLoop]
    by_cases hin : makeFileName pfx suffix ∈ gri.targets
    · rw [if_pos hin]
      apply ih
      · -- GlyfInv after objUpdate
        intro g l hg e he
        by_cases hgk : g = fnStandardTtc { cfg with distinguishWidths := true }
            collectPfx sfi.weight sfi.width sfi.slope
        · subst hgk
          rw [lookup_objUpdate_self] at hg
          injection hg with hg
          rw [← hg] at he
          rcases List.mem_append.mp he with he | he
          · rcases ho : st.1.lookup (fnStandardTtc { cfg with distinguishWidths := true }
                collectPfx sfi.weight sfi.width sfi.slope) with _ | l₀
            · rw [ho] at he; simp at he
            · rw [ho] at he
              exact h1 _ l₀ ho e he
          · rw [List.mem_singleton.mp he]
            exact ⟨gri, hplan, hin⟩
        · rw [lookup_objUpdate_ne _ _ _ _ hgk] at hg
          exact h1 g l hg e he
      · -- TtcInv after the two objUpdates
        intro tn gs hg g hgmem
        by_cases htk : tn = fnStandardTtc cfg collectPfx sfi.weight sfi.width sfi.slope
        · subst htk
          rw [lookup_objUpdate_self] at hg
          injection hg with hg
          rw [← hg] at hgmem
          rcases List.mem_append.mp hgmem with hgm | hgm
          · rcases ho : st.2.1.lookup (fnStandardTtc cfg collectPfx sfi.weight sfi.width
                sfi.slope) with _ | gs₀
            · rw [ho] at hgm; simp at hgm
            · rw [ho] at hgm
              obtain ⟨l, hl⟩ := h2 _ gs₀ ho g hgm
              exact lookup_objUpdate_some _ _ _ _ hl
          · rw [List.mem_singleton.mp hgm]
            exact ⟨_, lookup_objUpdate_self _ _ _⟩
        · rw [lookup_objUpdate_ne _ _ _ _ htk] at hg
          obtain ⟨l, hl⟩ := h2 tn gs hg g hgmem
          exact lookup_objUpdate_some _ _ _ _ hl
    · rw [if_neg hin]
      exact ih st h1 h2

end Verdafile

namespace Verdafile

theorem collectFromLoop_inv {bps : List (String × ResolvedPlan)} {cfg : CollectConfig}
    {collectPfx : String} {sm : List (String × SuffixMappingItem)} :
    ∀ (iter : List String) (st st' : CollectState),
      GlyfInv bps st.1 → TtcInv st.1 st.2.1 →
      collectFromLoop bps cfg collectPfx sm iter st = .ok st' →
      GlyfInv bps st'.1 ∧ TtcInv st'.1 st'.2.1 := by
  intro iter
  induction iter with
  | nil =>
    intro st st' h1 h2 h
    simp only [collectFromLoop] at h
    injection h with he
    subst he
    exact ⟨h1, h2⟩
  | cons pfx rest ih =>
    intro st st' h1 h2 h
    simp only [collectFromLoop] at h
    cases hp : bps.lookup pfx with
    | none => simp only [hp] at h; exact Except.noConfusion h
    | some gri =>
      simp only [hp] at h
      obtain ⟨hg, ht⟩ := collectSuffixLoop_inv hp sm st h1 h2
      exact ih _ st' hg ht h

theorem collectLoop_inv {bps : List (String × ResolvedPlan)} {cfg : CollectConfig}
    {sm : List (String × SuffixMappingItem)} :
    ∀ (iter : List (String × CollectEntry)) (acc res : CollectPlansResult),
      GlyfInv bps acc.glyfTtcComposition →
      TtcInv acc.glyfTtcComposition acc.ttcComposition →
      collectLoop bps cfg sm iter acc = .ok res →
      GlyfInv bps res.glyfTtcComposition ∧
        TtcInv res.glyfTtcComposition res.ttcComposition := by
  intro iter
  induction iter with
  | nil =>
    intro acc res h1 h2 h
    simp only [collectLoop] at h
    injection h with he
    subst he
    exact ⟨h1, h2⟩
  | cons ce rest ih =>
    intro acc res h1 h2 h
    simp only [collectLoop] at h
    by_cases he : ce.2.fromList.isEmpty = true
    · rw [if_pos he] at h
      exact ih acc res h1 h2 h
    · rw [if_neg he] at h
      cases hf : collectFromLoop bps cfg ce.1 sm ce.2.fromList
          (acc.glyfTtcComposition, acc.ttcComposition, []) with
      | error e => simp only [hf] at h; exact Except.noConfusion h
      | ok st =>
        simp only [hf] at h
        have hst := collectFromLoop_inv ce.2.fromList _ st h1 h2 hf
        exact ih _ res hst.1 hst.2 h

theorem collectFromLoop_ok {bps : List (String × ResolvedPlan)} {cfg : CollectConfig}
    {collectPfx : String} {sm : List (String × SuffixMappingItem)} :
    ∀ (iter : List String) (st : CollectState),
      (∀ pfx ∈ iter, (bps.lookup pfx).isSome) →
      ∃ st', collectFromLoop bps cfg collectPfx sm iter st = .ok st' := by
  intro iter
  induction iter with
  | nil => intro st _; exact ⟨st, rfl⟩
  | cons pfx rest ih =>
    intro st h
    have hp := h pfx (List.mem_cons_self pfx rest)
    simp only [collectFromLoop]
    cases hlk : bps.lookup pfx with
    | none => rw [hlk] at hp; simp at hp
    | some gri => exact ih _ fun p hpm => h p (List.mem_cons_of_mem _ hpm)

theorem collectLoop_ok {bps : List (String × ResolvedPlan)} {cfg : CollectConfig}
    {sm : List (String × SuffixMappingItem)} :
    ∀ (iter : List (String × CollectEntry)) (acc : CollectPlansResult),
      (∀ ce ∈ iter, ∀ pfx ∈ ce.2.fromList, (bps.lookup pfx).isSome) →
      ∃ res, collectLoop bps cfg sm iter acc = .ok res := by
  intro iter
  induction iter with
  | nil => intro acc _; exact ⟨acc, rfl⟩
  | cons ce rest ih =>
    intro acc h
    simp only [collectLoop]
    by_cases he : ce.2.fromList.isEmpty = true
    · rw [if_pos he]
      exact ih acc fun c hc => h c (List.mem_cons_of_mem _ hc)
    · rw [if_neg he]
      obtain ⟨st, hst⟩ := collectFromLoop_ok ce.2.fromList
        (acc.glyfTtcComposition, acc.ttcComposition, [])
        (h ce (List.mem_cons_self ce rest))
      rw [hst]
      exact ih _ fun c hc => h c (List.mem_cons_of_mem _ hc)

/-- Claim C3: in the collection planner's output, every `(source, file)` pair of
`glyfTtcComposition` references a target actually produced by its source plan
(a suffix of the global standard mapping with no corresponding target in the
source plan is silently skipped), every container name in a `ttcComposition`
list is a key of `glyfTtcComposition`, and the planner raises no error for such
missing combinations — it fails only when a `from`-listed prefix has no build
plan at all. -/
theorem c3_sparse_axis_tolerance :
    (∀ (bps : List (String × ResolvedPlan)) (raw : List (String × CollectEntry))
      (sm : List (String × SuffixMappingItem)) (cfg : CollectConfig)
      (cp : CollectPlansResult),
      getCollectPlans bps raw sm cfg = .ok cp →
      (∀ g l, cp.glyfTtcComposition.lookup g = some l →
        ∀ e ∈ l, ∃ plan, bps.lookup e.1 = some plan ∧ e.2 ∈ plan.targets)
      ∧ (∀ t gs, cp.ttcComposition.lookup t = some gs →
        ∀ g ∈ gs, ∃ l, cp.glyfTtcComposition.lookup g = some l))
  ∧ (∀ (bps : List (String × ResolvedPlan)) (raw : List (String × CollectEntry))
      (sm : List (String × SuffixMappingItem)) (cfg : CollectConfig),
      (∀ ce ∈ raw, ∀ pfx ∈ ce.2.fromList, (bps.lookup pfx).isSome) →
      exceptIsOk (getCollectPlans bps raw sm cfg) = true) := by
  constructor
  · intro bps raw sm cfg cp h
    exact collectLoop_inv raw ⟨[], [], [], []⟩ cp
      (by intro g l hg; simp [List.lookup] at hg)
      (by intro t gs hg; simp [List.lookup] at hg) h
  · intro bps raw sm cfg h
    obtain ⟨res, hres⟩ := collectLoop_ok raw ⟨[], [], [], []⟩ h
    unfold getCollectPlans
    rw [hres]
    rfl

/-- A two-weight axis table (`regular` and `bold`), used by the sparse-axis and
deduplication scenarios. -/
def twoWeights : Weights := [("regular", ⟨400, 400, 400⟩), ("bold", ⟨700, 700, 700⟩)]

/-- The `"p"` plan: produces both `p-regular` and `p-bold`. -/
def pBoldRaw : RawBuildPlan :=
  { family := some "P", weights := some twoWeights,
    slopes := some uprightSlopes, widths := some normalWidths }

/-- The `"q"` plan: produces only `q-regular` — it lacks the `bold` weight of
the global axis tables (a sparse axis). -/
def qSparseRaw : RawBuildPlan :=
  { family := some "Q", weights := some regularWeights,
    slopes := some uprightSlopes, widths := some normalWidths }

/-- The expanded build plans of the sparse scenario. -/
def sparseBps : List (String × ResolvedPlan) :=
  match buildPlansOf [("p", pBoldRaw), ("q", qSparseRaw)] none none none with
  | .ok r => r.buildPlans
  | .error _ => []

/-- The global standard suffix mapping of the sparse scenario (global axes:
`twoWeights` × `uprightSlopes` × `normalWidths`). -/
def sparseSm : List (String × SuffixMappingItem) :=
  match getSuffixMapping twoWeights uprightSlopes normalWidths with
  | .ok m => m
  | .error _ => []

/-- Claim C3, witness: instantiation of `c3_sparse_axis_tolerance` on a collection
sourcing the full plan `"p"` and the sparse plan `"q"` (which lacks the global
`bold` weight): the planner succeeds without error. -/
theorem c3_sparse_axis_tolerance_witness :
    exceptIsOk (getCollectPlans sparseBps [("col", ⟨["p", "q"]⟩)] sparseSm {}) = true :=
  c3_sparse_axis_tolerance.2 sparseBps [("col", ⟨["p", "q"]⟩)] sparseSm {} (by decide)

end Verdafile

namespace Verdafile

/-! ## Deduplication of composition lists (for C7) -/

/-- The collection plan computed for a collection sourcing only `"p"` with no
distinguished axes: both weights fold to the same container name, so the
planner's `ttcComposition` list contains the same intermediate name twice. -/
def dupCp : CollectPlansResult :=
  match getCollectPlans sparseBps [("col", ⟨["p"]⟩)] sparseSm {} with
  | .ok cp => cp
  | .error _ => ⟨[], [], [], []⟩

/-- Claim C7, counterexample: the collection plan set handed to consumers is `dupCp`
(the planner's own output), and its `ttcComposition` list for `"col-regular"`
is `["col-regular", "col-regular"]` — two exactly equal entries.  Duplicates are
therefore *not* removed before the plan set is handed to consumers, refuting the
claim as stated (the TTC consumer deduplicates at consumption time instead, and
the `glyfTtcComposition` lists are consumed without any deduplication). -/
theorem c7_counterexample :
    getCollectPlans sparseBps [("col", ⟨["p"]⟩)] sparseSm {} = .ok dupCp
    ∧ dupCp.ttcComposition.lookup "col-regular" = some ["col-regular", "col-regular"]
    ∧ ¬ (["col-regular", "col-regular"] : List String).Nodup :=
  ⟨by rfl, by decide, by decide⟩

/-- Claim C7, amended: the planner's composition lists may contain exact
duplicates; the part list the TTC build step actually consumes
(`Array.from(new Set(cp.ttcComposition[f]))`, modelled by `ttcConsumerParts`)
is deduplicated by exact equality at consumption time: it has no two equal
entries, is a sublist of the planner's list (so first-insertion order is
preserved), and keeps exactly the elements of the planner's list.  The
`glyfTtcComposition` lists are consumed without deduplication. -/
theorem c7_dedup_at_consumer :
    ∀ (bps : List (String × ResolvedPlan)) (raw : List (String × CollectEntry))
      (sm : List (String × SuffixMappingItem)) (cfg : CollectConfig)
      (cp : CollectPlansResult) (f : String) (l : List String),
      getCollectPlans bps raw sm cfg = .ok cp →
      cp.ttcComposition.lookup f = some l →
      (ttcConsumerParts cp f).Nodup
      ∧ (ttcConsumerParts cp f).Sublist l
      ∧ (∀ x, x ∈ ttcConsumerParts cp f ↔ x ∈ l) := by
  intro bps raw sm cfg cp f l _ hlk
  have he : ttcConsumerParts cp f = jsSetDedup l := by
    simp [ttcConsumerParts, hlk]
  rw [he]
  exact ⟨jsSetDedup_nodup l, jsSetDedup_sublist l, fun x => mem_jsSetDedup⟩

/-- Claim C7, witness: instantiation of `c7_dedup_at_consumer` on the duplicate
scenario — the consumer's deduplicated part list for `"col-regular"` has no
duplicate entries. -/
theorem c7_dedup_at_consumer_witness :
    (ttcConsumerParts dupCp "col-regular").Nodup :=
  (c7_dedup_at_consumer sparseBps [("col", ⟨["p"]⟩)] sparseSm {} dupCp "col-regular"
    ["col-regular", "col-regular"] (by rfl) (by decide)).1

end Verdafile

namespace Verdafile

/-! ## Single-flight invariant of the task-graph model (for C9) -/

/-- Modelled from the spec: the per-key invariant of the evaluator — a key has
been started exactly once iff it is known; the `unevaluated` state is never
stored; and every delivered result for a key carries the key's settled value. -/
def taskInv (st : TaskGraphState V) (k : String) : Prop :=
  (st.nodes.lookup k = none → st.evalStarts.count k = 0)
  ∧ (st.nodes.lookup k ≠ none → st.evalStarts.count k = 1)
  ∧ st.nodes.lookup k ≠ some NodeState.unevaluated
  ∧ ∀ r v, (r, k, v) ∈ st.delivered → st.nodes.lookup k = some (NodeState.settled v)

theorem count_append_ne {l : List String} {k k' : String} (h : k ≠ k') :
    (l ++ [k']).count k = l.count k := by
  have hb : (k' == k) = false := beq_eq_false_iff_ne.mpr (Ne.symm h)
  simp [List.count_append, List.count_singleton', hb]
  exact fun he => h he.symm

theorem count_append_self (l : List String) (k : String) :
    (l ++ [k]).count k = l.count k + 1 := by
  simp [List.count_append, List.count_singleton]

theorem taskStep_inv {V : Type u} {st : TaskGraphState V} {k : String} (e : TaskEvent V)
    (h : taskInv st k) : taskInv (taskStep st e) k := by
  obtain ⟨h0, h1, hu, hd⟩ := h
  cases e with
  | needReq r k' =>
    cases hlk : st.nodes.lookup k' with
    | none =>
      simp only [taskStep, hlk]
      by_cases hk : k = k'
      · subst hk
        refine ⟨?_, ?_, ?_, ?_⟩
        · intro hc
          rw [lookup_objInsert_self] at hc
          exact Option.noConfusion hc
        · intro _
          rw [count_append_self, h0 hlk]
        · rw [lookup_objInsert_self]
          simp
        · intro r' v' hmem
          have hx := hd r' v' hmem
          rw [hlk] at hx
          exact Option.noConfusion hx
      · have hne := lookup_objInsert_ne st.nodes k' k (NodeState.evaluating [r]) hk
        refine ⟨?_, ?_, ?_, ?_⟩
        · intro hc
          rw [hne] at hc
          rw [count_append_ne hk]
          exact h0 hc
        · intro hc
          rw [hne] at hc
          rw [count_append_ne hk]
          exact h1 hc
        · rw [hne]
          exact hu
        · intro r' v' hmem
          rw [hne]
          exact hd r' v' hmem
    | some ns =>
      cases ns with
      | unevaluated =>
        simp only [taskStep, hlk]
        by_cases hk : k = k'
        · subst hk
          exact absurd hlk hu
        · have hne := lookup_objInsert_ne st.nodes k' k (NodeState.evaluating [r]) hk
          refine ⟨?_, ?_, ?_, ?_⟩
          · intro hc
            rw [hne] at hc
            rw [count_append_ne hk]
            exact h0 hc
          · intro hc
            rw [hne] at hc
            rw [count_append_ne hk]
            exact h1 hc
          · rw [hne]
            exact hu
          · intro r' v' hmem
            rw [hne]
            exact hd r' v' hmem
      | evaluating ws =>
        simp only [taskStep, hlk]
        by_cases hk : k = k'
        · subst hk
          refine ⟨?_, ?_, ?_, ?_⟩
          · intro hc
            rw [lookup_objInsert_self] at hc
            exact Option.noConfusion hc
          · intro _
            exact h1 (by rw [hlk]; simp)
          · rw [lookup_objInsert_self]
            simp
          · intro r' v' hmem
            have hx := hd r' v' hmem
            rw [hlk] at hx
            injection hx with hx
            exact NodeState.noConfusion hx
        · have hne := lookup_objInsert_ne st.nodes k' k (NodeState.evaluating (ws ++ [r])) hk
          refine ⟨?_, ?_, ?_, ?_⟩
          · intro hc
            rw [hne] at hc
            exact h0 hc
          · intro hc
            rw [hne] at hc
            exact h1 hc
          · rw [hne]
            exact hu
          · intro r' v' hmem
            rw [hne]
            exact hd r' v' hmem
      | settled v =>
        simp only [taskStep, hlk]
        refine ⟨h0, h1, hu, ?_⟩
        intro r' v' hmem
        rcases List.mem_append.mp hmem with hmem | hmem
        · exact hd r' v' hmem
        · rw [List.mem_singleton] at hmem
          injection hmem with he₁ he₂
          injection he₂ with he₂ he₃
          subst he₂ he₃
          exact hlk
  | complete k' v =>
    cases hlk : st.nodes.lookup k' with
    | none => simpa only [taskStep, hlk] using ⟨h0, h1, hu, hd⟩
    | some ns =>
      cases ns with
      | unevaluated => simpa only [taskStep, hlk] using ⟨h0, h1, hu, hd⟩
      | settled v₀ => simpa only [taskStep, hlk] using ⟨h0, h1, hu, hd⟩
      | evaluating ws =>
        simp only [taskStep, hlk]
        by_cases hk : k = k'
        · subst hk
          refine ⟨?_, ?_, ?_, ?_⟩
          · intro hc
            rw [lookup_objInsert_self] at hc
            exact Option.noConfusion hc
          · intro _
            exact h1 (by rw [hlk]; simp)
          · rw [lookup_objInsert_self]
            simp
          · intro r' v' hmem
            rcases List.mem_append.mp hmem with hmem | hmem
            · have hx := hd r' v' hmem
              rw [hlk] at hx
              injection hx with hx
              exact NodeState.noConfusion hx
            · rw [lookup_objInsert_self]
              obtain ⟨r₀, _, he⟩ := List.mem_map.mp hmem
              injection he with he₁ he₂
              injection he₂ with he₂ he₃
              subst he₃
              rfl
        · have hne := lookup_objInsert_ne st.nodes k' k (NodeState.settled v) hk
          refine ⟨?_, ?_, ?_, ?_⟩
          · intro hc
            rw [hne] at hc
            exact h0 hc
          · intro hc
            rw [hne] at hc
            exact h1 hc
          · rw [hne]
            exact hu
          · intro r' v' hmem
            rw [hne]
            rcases List.mem_append.mp hmem with hmem | hmem
            · exact hd r' v' hmem
            · obtain ⟨r₀, _, he⟩ := List.mem_map.mp hmem
              injection he with he₁ he₂
              injection he₂ with he₂ he₃
              exact absurd he₂.symm hk

end Verdafile

namespace Verdafile

theorem taskFold_inv {V : Type u} (es : List (TaskEvent V)) (k : String) :
    ∀ st : TaskGraphState V, taskInv st k → taskInv (es.foldl taskStep st) k := by
  induction es with
  | nil => intro st h; exact h
  | cons e rest ih => intro st h; exact ih _ (taskStep_inv e h)

theorem taskStep_keeps {V : Type u} {st : TaskGraphState V} {k : String} (e : TaskEvent V)
    (h : st.nodes.lookup k ≠ none) : (taskStep st e).nodes.lookup k ≠ none := by
  cases e with
  | needReq r k' =>
    cases hlk : st.nodes.lookup k' with
    | none =>
      simp only [taskStep, hlk]
      by_cases hk : k = k'
      · subst hk; rw [lookup_objInsert_self]; simp
      · rw [lookup_objInsert_ne _ _ _ _ hk]; exact h
    | some ns =>
      cases ns with
      | unevaluated =>
        simp only [taskStep, hlk]
        by_cases hk : k = k'
        · subst hk; rw [lookup_objInsert_self]; simp
        · rw [lookup_objInsert_ne _ _ _ _ hk]; exact h
      | evaluating ws =>
        simp only [taskStep, hlk]
        by_cases hk : k = k'
        · subst hk; rw [lookup_objInsert_self]; simp
        · rw [lookup_objInsert_ne _ _ _ _ hk]; exact h
      | settled v => simpa only [taskStep, hlk] using h
  | complete k' v =>
    cases hlk : st.nodes.lookup k' with
    | none => simpa only [taskStep, hlk] using h
    | some ns =>
      cases ns with
      | unevaluated => simpa only [taskStep, hlk] using h
      | settled v₀ => simpa only [taskStep, hlk] using h
      | evaluating ws =>
        simp only [taskStep, hlk]
        by_cases hk : k = k'
        · subst hk; rw [lookup_objInsert_self]; simp
        · rw [lookup_objInsert_ne _ _ _ _ hk]; exact h

theorem taskFold_keeps {V : Type u} (es : List (TaskEvent V)) (k : String) :
    ∀ st : TaskGraphState V, st.nodes.lookup k ≠ none →
      (es.foldl taskStep st).nodes.lookup k ≠ none := by
  induction es with
  | nil => intro st h; exact h
  | cons e rest ih => intro st h; exact ih _ (taskStep_keeps e h)

theorem taskStep_need_known {V : Type u} (st : TaskGraphState V) (r : Nat) (k : String) :
    (taskStep st (TaskEvent.needReq r k)).nodes.lookup k ≠ none := by
  cases hlk : st.nodes.lookup k with
  | none =>
    simp only [taskStep, hlk]
    rw [lookup_objInsert_self]
    simp
  | some ns =>
    cases ns with
    | unevaluated =>
      simp only [taskStep, hlk]
      rw [lookup_objInsert_self]
      simp
    | evaluating ws =>
      simp only [taskStep, hlk]
      rw [lookup_objInsert_self]
      simp
    | settled v =>
      simp only [taskStep, hlk]
      simp

theorem taskFold_need {V : Type u} (k : String) :
    ∀ (es : List (TaskEvent V)) (st : TaskGraphState V),
      (∃ r, TaskEvent.needReq r k ∈ es) →
      (es.foldl taskStep st).nodes.lookup k ≠ none := by
  intro es
  induction es with
  | nil =>
    intro st h
    obtain ⟨r, hr⟩ := h
    simp at hr
  | cons e rest ih =>
    intro st h
    obtain ⟨r, hr⟩ := h
    rcases List.mem_cons.mp hr with rfl | hr
    · exact taskFold_keeps rest k _ (taskStep_need_known st r k)
    · exact ih _ ⟨r, hr⟩

/-- Claim C9 (modelled from the spec; the evaluator is the external `verda`
package, not under `src/`): the task-graph evaluator is single-flight — over any
event sequence, each node key starts evaluating at most once; once some `need`
request for the key occurs, exactly one evaluation is started no matter how many
concurrent requests arrive (later requests join the in-flight evaluation or read
the settled cache); and all results ever delivered for one key are the value of
that single evaluation. -/
theorem c9_single_flight :
    ∀ (V : Type) (es : List (TaskEvent V)) (k : String),
      (taskRun es).evalStarts.count k ≤ 1
    ∧ (∀ r, TaskEvent.needReq r k ∈ es → (taskRun es).evalStarts.count k = 1)
    ∧ (∀ r₁ v₁ r₂ v₂, (r₁, k, v₁) ∈ (taskRun es).delivered →
        (r₂, k, v₂) ∈ (taskRun es).delivered → v₁ = v₂) := by
  intro V es k
  have hinit : taskInv (⟨[], [], []⟩ : TaskGraphState V) k := by
    refine ⟨fun _ => rfl, fun h => absurd rfl h, ?_, ?_⟩
    · intro hc
      exact Option.noConfusion hc
    · intro r v hmem
      simp at hmem
  have hinv : taskInv (taskRun es) k := taskFold_inv es k ⟨[], [], []⟩ hinit
  refine ⟨?_, ?_, ?_⟩
  · by_cases h : (taskRun es).nodes.lookup k = none
    · rw [hinv.1 h]
      omega
    · rw [hinv.2.1 h]
  · intro r hr
    exact hinv.2.1 (taskFold_need k es ⟨[], [], []⟩ ⟨r, hr⟩)
  · intro r₁ v₁ r₂ v₂ h₁ h₂
    have e₁ := hinv.2.2.2 r₁ v₁ h₁
    have e₂ := hinv.2.2.2 r₂ v₂ h₂
    rw [e₁] at e₂
    simp only [Option.some.injEq, NodeState.settled.injEq] at e₂
    exact e₂

/-- Claim C9, witness: instantiation of `c9_single_flight` on a concrete trace in
which two requesters concurrently `need` the same node `"ttf"` before its
evaluation completes — exactly one evaluation is started. -/
theorem c9_single_flight_witness :
    (taskRun [TaskEvent.needReq 1 "ttf", TaskEvent.needReq 2 "ttf",
      TaskEvent.complete "ttf" (7 : Nat)]).evalStarts.count "ttf" = 1 :=
  (c9_single_flight Nat
    [TaskEvent.needReq 1 "ttf", TaskEvent.needReq 2 "ttf",
      TaskEvent.complete "ttf" (7 : Nat)] "ttf").2.1 1 (by simp)

end Verdafile

namespace Verdafile

/-- Claim C5, witness: instantiation of `c5_width_grade_fixup` — strict
monotonicity at grades 3 < 5, and identity outside the grade range at 10. -/
theorem c5_width_grade_fixup_witness :
    vlShapeWidthFix ((3 : ℤ) : ℚ) < vlShapeWidthFix ((5 : ℤ) : ℚ)
    ∧ vlShapeWidthFix 10 = 10 :=
  ⟨c5_width_grade_fixup.2.2.1 3 5 (by decide) (by decide) (by decide),
   c5_width_grade_fixup.2.2.2 10 (by norm_num)⟩

end Verdafile
